import Mathlib

/-!
Verification of the compaction picker (`db/compaction_picker.cc`) of an
LSM-tree storage engine, against its natural-language specification.

Modelling conventions:
* Internal keys and user keys are modelled as `Nat` with its linear order;
  the `InternalKeyComparator` and the user comparator both become the
  order on `Nat` (the engine's default comparator is bytewise, so the two
  orders used by the source coincide in this model).
* `uint64_t` arithmetic is modelled on `Nat` with an explicit `% 2^64`
  (`add64`, `mul64`, `sub64`) wherever the source computes in `uint64_t`;
  theorems carry no-overflow hypotheses where they remove the modulus.
* Fallible routines return `Except Status`; "return nullptr" becomes
  `Option.none`.
-/

/-- The subset of `FileMetaData` the picker reads: file number, key range,
raw size (`fd.GetFileSize()`), compensated size and the in-flight flag. -/
structure FileMetaData where
  file_number : Nat
  smallest : Nat
  largest : Nat
  file_size : Nat
  compensated_file_size : Nat
  being_compacted : Bool
deriving DecidableEq, Inhabited

/-- `2^64`, the modulus of `uint64_t` arithmetic. -/
def w64 : Nat := 18446744073709551616

/-- `uint64_t` addition. -/
def add64 (a b : Nat) : Nat := (a + b) % w64

/-- `uint64_t` multiplication. -/
def mul64 (a b : Nat) : Nat := (a * b) % w64

/-- `uint64_t` subtraction (wrap-around). -/
def sub64 (a b : Nat) : Nat := (a + w64 - b % w64) % w64

/-- `TotalCompensatedFileSize`: sum of `compensated_file_size` over a file
list (the source walks the vector accumulating into a `uint64_t`). -/
def TotalCompensatedFileSize (files : List FileMetaData) : Nat :=
  files.foldl (fun sum f => add64 sum f.compensated_file_size) 0

/-- Plain (unbounded) sum of compensated sizes, used to state theorems. -/
def sumCompensated (files : List FileMetaData) : Nat :=
  files.foldl (fun sum f => sum + f.compensated_file_size) 0

/-- Plain sum of raw file sizes. -/
def sumFileSize (files : List FileMetaData) : Nat :=
  files.foldl (fun sum f => sum + f.file_size) 0

/-- `GetRange`: bounding key range of a file set (the source asserts the
set non-empty; on `[]` we return the dummy `(0, 0)`). -/
def GetRange : List FileMetaData → Nat × Nat
  | [] => (0, 0)
  | f :: rest => rest.foldl (fun p g => (min p.1 g.smallest, max p.2 g.largest))
      (f.smallest, f.largest)

/-- Modelled from the spec: `Version::GetOverlappingInputs(level, begin, end)`
(the `Version` class is an external collaborator, not part of the picker
source).  Per the spec it returns the files of the level whose key range
intersects `[begin, end]`; a `none` bound is unbounded. -/
def GetOverlappingInputs (files : List FileMetaData) (b e : Option Nat) :
    List FileMetaData :=
  files.filter (fun f =>
    (match b with | none => true | some k => decide (k ≤ f.largest)) &&
    (match e with | none => true | some k => decide (f.smallest ≤ k)))

/-- `CompactionPicker::FilesInCompaction`: some file is being compacted. -/
def FilesInCompaction (files : List FileMetaData) : Bool :=
  files.any (fun f => f.being_compacted)

/-- `CompactionPicker::ParentRangeInCompaction`: some parent-level file
overlapping `[smallest, largest]` is being compacted. -/
def ParentRangeInCompaction (parentFiles : List FileMetaData)
    (smallest largest : Nat) : Bool :=
  FilesInCompaction (GetOverlappingInputs parentFiles (some smallest) (some largest))

/-- The do-while fixpoint of `ExpandWhileOverlapping`: replace the inputs by
the files overlapping their bounding range, until the set stops growing.
`fuel` bounds the iterations; the source's loop terminates after at most
`levelFiles.length` growth steps since the set only grows within the level. -/
def expandFix (levelFiles : List FileMetaData) :
    Nat → List FileMetaData → List FileMetaData
  | 0, inputs => inputs
  | fuel + 1, inputs =>
      let r := GetRange inputs
      let next := GetOverlappingInputs levelFiles (some r.1) (some r.2)
      if inputs.length < next.length then expandFix levelFiles fuel next else next

/-- `CompactionPicker::ExpandWhileOverlapping` on a compaction at `level`
with output `outputLevel`, seed inputs `inputs0`, the level's file list and
the parent level's file list.  Returns the source's boolean result together
with the final `inputs_[0]` (cleared on refusal, as in the source). -/
def ExpandWhileOverlapping (levelFiles parentFiles : List FileMetaData)
    (level outputLevel : Nat) (inputs0 : List FileMetaData) :
    Bool × List FileMetaData :=
  if inputs0.isEmpty then (false, inputs0)
  else if level == 0 then (true, inputs0)
  else
    let ex := expandFix levelFiles (levelFiles.length + 1) inputs0
    let r := GetRange ex
    if ex.isEmpty || FilesInCompaction ex ||
        (level != outputLevel && ParentRangeInCompaction parentFiles r.1 r.2)
    then (false, [])
    else (true, ex)

/-- C7 counterexample: a level-0 compaction with empty `inputs_[0]` is
refused (`ExpandWhileOverlapping` returns `false`), contradicting the claim
that the function returns `true` for every level-0 compaction including one
with empty inputs; the empty-inputs check precedes the level-0 early return. -/
theorem expandWhileOverlapping_level0_empty_cex :
    (ExpandWhileOverlapping [] [] 0 0 []).1 = false := by
  decide

/-- C7 (amended): for every level-0 compaction whose `inputs_[0]` is
non-empty, `ExpandWhileOverlapping` performs no expansion and no refusal
checks: it returns `true` and leaves the inputs unchanged, for any file
lists and any output level. -/
theorem expandWhileOverlapping_level0_noop
    (levelFiles parentFiles : List FileMetaData) (outputLevel : Nat)
    (inputs0 : List FileMetaData) (h : inputs0 ≠ []) :
    ExpandWhileOverlapping levelFiles parentFiles 0 outputLevel inputs0 =
      (true, inputs0) := by
  unfold ExpandWhileOverlapping
  rw [if_neg, if_pos] <;> simp [List.isEmpty_iff, h]

/-- Witness for C7's amended theorem at a concrete non-empty input. -/
theorem expandWhileOverlapping_level0_noop_witness :
    ExpandWhileOverlapping [] [] 0 3 [⟨7, 1, 2, 10, 10, false⟩] =
      (true, [⟨7, 1, 2, 10, 10, false⟩]) :=
  expandWhileOverlapping_level0_noop [] [] 3 [⟨7, 1, 2, 10, 10, false⟩] (by decide)

/-- The fields of a `Compaction` object that `FormCompaction` sets. -/
structure Compaction where
  level : Int
  output_level : Int
  max_grandparent_overlap_bytes : Nat
  inputs : List (Int × List FileMetaData)
  deletion_compaction : Bool
  bottommost_level : Bool
deriving DecidableEq

/-- `CompactionPicker::FormCompaction`.  The local
`max_grandparent_overlap_bytes` is initialised to `0`; the conditional
`MaxGrandParentOverlapBytes` expression that follows in the source is
evaluated as a bare expression statement and its value is never bound
(mirrored by `_unused` below), so the value passed to the `Compaction`
constructor is always the initial zero. -/
def FormCompaction (kDeletionCompaction : Int) (numLevels : Int)
    (maxGrandParentOverlapBytes : Int → Nat)
    (input_files : List (Int × List FileMetaData)) (output_level : Int) :
    Compaction :=
  let max_grandparent_overlap_bytes : Nat := 0
  let _unused : Nat :=
    if output_level != kDeletionCompaction then
      (if output_level + 1 < numLevels then
        maxGrandParentOverlapBytes (output_level + 1)
      else w64 - 1)
    else 0
  { level := (input_files.headD (0, [])).1
    output_level := output_level
    max_grandparent_overlap_bytes := max_grandparent_overlap_bytes
    inputs := input_files
    deletion_compaction := output_level == kDeletionCompaction
    bottommost_level := output_level == numLevels - 1 }

/-- C10: for every call to `FormCompaction` — any output level (the
`kDeletionCompaction` sentinel or not), any number of levels, any option
function and any input files — the constructed `Compaction` carries
`max_grandparent_overlap_bytes = 0`: the `MaxGrandParentOverlapBytes`
expression is evaluated but never bound, so the initial zero is passed. -/
theorem formCompaction_grandparent_overlap_zero
    (kDeletionCompaction numLevels : Int)
    (maxGrandParentOverlapBytes : Int → Nat)
    (input_files : List (Int × List FileMetaData)) (output_level : Int) :
    (FormCompaction kDeletionCompaction numLevels maxGrandParentOverlapBytes
        input_files output_level).max_grandparent_overlap_bytes = 0 :=
  rfl

/-- The walk of `LevelCompactionPicker::PickCompactionBySize` over
`files_by_size_[level]` starting at the persisted cursor: skip files being
compacted, remember the first non-compacting position (`acc`), skip files
whose parents are in compaction, and seed with the first survivor. -/
def pickBySizeWalk (files parentFiles : List FileMetaData) :
    List Nat → Nat → Option Nat → Option FileMetaData × Option Nat
  | [], _, acc => (none, acc)
  | index :: rest, i, acc =>
      let f := files.getD index default
      if f.being_compacted then
        pickBySizeWalk files parentFiles rest (i + 1) acc
      else
        let acc' := if acc.isSome then acc else some i
        if ParentRangeInCompaction parentFiles f.smallest f.largest then
          pickBySizeWalk files parentFiles rest (i + 1) acc'
        else (some f, acc')

/-- `LevelCompactionPicker::PickCompactionBySize` for a level: refuse when
`level == 0` and `compactions_in_progress_[0].size() == 1`; otherwise walk
`files_by_size` from the cursor.  The second component is the value written
back into `next_file_to_compact_by_size_[level]` (`none` when the early
return skips the write; the source stores `-1` when no free file exists). -/
def PickCompactionBySize (inProgressAtLevel : Nat) (level : Nat)
    (files parentFiles : List FileMetaData) (files_by_size : List Nat)
    (cursor : Nat) : Option FileMetaData × Option Int :=
  if level == 0 && inProgressAtLevel == 1 then (none, none)
  else
    let r := pickBySizeWalk files parentFiles (files_by_size.drop cursor) cursor none
    (r.1, some (match r.2 with | none => (-1 : Int) | some i => (i : Int)))

/-- C6 counterexample: with two in-flight level-0 compactions (a non-empty
`compactions_in_progress_[0]`) and a free level-0 file, the guard
`size() == 1` does not fire and `PickCompactionBySize` returns a compaction
seed, contradicting the claim that any non-empty in-flight set at level 0
makes it return nothing. -/
theorem pickCompactionBySize_two_inflight_cex :
    (PickCompactionBySize 2 0 [⟨1, 5, 6, 10, 10, false⟩] [] [0] 0).1 =
      some ⟨1, 5, 6, 10, 10, false⟩ := by
  decide

/-- C6 (amended): whenever exactly one in-flight level-0 compaction exists
(`compactions_in_progress_[0].size() == 1`), `PickCompactionBySize` at
level 0 returns nothing and does not touch the cursor, regardless of the
version's files, the parent level, the size ordering and the cursor. -/
theorem pickCompactionBySize_level0_single_inflight
    (files parentFiles : List FileMetaData) (files_by_size : List Nat)
    (cursor : Nat) :
    PickCompactionBySize 1 0 files parentFiles files_by_size cursor =
      (none, none) :=
  rfl

/-- Picker state for the in-flight bookkeeping: the set of file numbers whose
`being_compacted` flag is true, and the descriptors (input file-number lists)
in `compactions_in_progress_` (levels flattened: insertion and erasure act on
the descriptor's own level in the source). -/
structure PickerState where
  marked : List Nat
  inProgress : List (List Nat)
deriving DecidableEq

/-- Modelled from the spec: `Compaction::MarkFilesBeingCompacted(b)` (the
`Compaction` class is outside the picker source) sets the `being_compacted`
flag of every input file of the compaction to `b`; here flags are membership
of the file number in `marked`. -/
def MarkFilesBeingCompacted (c : List Nat) (b : Bool) (marked : List Nat) :
    List Nat :=
  if b then c ++ marked else marked.filter (fun n => decide (n ∉ c))

/-- The tail of the automatic `PickCompaction` paths (leveled, universal and
FIFO): mark the chosen files and insert the descriptor into
`compactions_in_progress_`. -/
def pickCompactionRegister (c : List Nat) (st : PickerState) : PickerState :=
  ⟨MarkFilesBeingCompacted c true st.marked, c :: st.inProgress⟩

/-- The tail of `CompactionPicker::CompactRange`: the chosen files are marked
`being_compacted` but the descriptor is not inserted into
`compactions_in_progress_` (`FormCompaction` behaves the same way). -/
def compactRangeMark (c : List Nat) (st : PickerState) : PickerState :=
  ⟨MarkFilesBeingCompacted c true st.marked, st.inProgress⟩

/-- `CompactionPicker::ReleaseCompactionFiles`: clear the flags of the
compaction's inputs and erase the descriptor from the in-flight set. -/
def ReleaseCompactionFiles (c : List Nat) (st : PickerState) : PickerState :=
  ⟨MarkFilesBeingCompacted c false st.marked, st.inProgress.erase c⟩

/-- The engine's core invariant: a file is flagged `being_compacted` iff some
in-flight compaction references it among its inputs. -/
def inflightInvariant (st : PickerState) : Prop :=
  ∀ f : Nat, f ∈ st.marked ↔ ∃ c ∈ st.inProgress, f ∈ c

/-- C5 counterexample: from the empty state (which satisfies the invariant),
`CompactionPicker::CompactRange` marks its chosen files but inserts no
descriptor, so the invariant fails afterwards — contradicting the claim that
every entry point returning a `Compaction` both marks and inserts. -/
theorem compactRange_inflight_invariant_cex :
    inflightInvariant ⟨[], []⟩ ∧
      ¬ inflightInvariant (compactRangeMark [1] ⟨[], []⟩) := by
  constructor
  · intro f
    simp [inflightInvariant]
  · intro h
    have h1 : (1 : Nat) ∈ (compactRangeMark [1] ⟨[], []⟩).marked := by
      simp [compactRangeMark, MarkFilesBeingCompacted]
    obtain ⟨c, hc, -⟩ := (h 1).mp h1
    simp [compactRangeMark] at hc

/-- C5 (amended): the automatic `PickCompaction` paths preserve the
in-flight invariant (they mark the chosen files and insert the descriptor),
and `ReleaseCompactionFiles` preserves it whenever no other in-flight
descriptor shares a file with the released one; but `CompactRange` and
`FormCompaction` mark files without inserting, so marking there breaks the
invariant (see the counterexample). -/
theorem inflight_invariant_preservation :
    (∀ (c : List Nat) (st : PickerState), inflightInvariant st →
      inflightInvariant (pickCompactionRegister c st)) ∧
    (∀ (c : List Nat) (st : PickerState), inflightInvariant st →
      (∀ f ∈ c, ∀ c' ∈ st.inProgress.erase c, f ∉ c') →
      inflightInvariant (ReleaseCompactionFiles c st)) := by
  constructor
  · intro c st h f
    simp only [pickCompactionRegister, MarkFilesBeingCompacted, if_pos,
      List.mem_append, List.mem_cons]
    rw [h f]
    constructor
    · rintro (hc | ⟨c', hc', hf⟩)
      · exact ⟨c, Or.inl rfl, hc⟩
      · exact ⟨c', Or.inr hc', hf⟩
    · rintro ⟨c', (rfl | hc'), hf⟩
      · exact Or.inl hf
      · exact Or.inr ⟨c', hc', hf⟩
  · intro c st h hdisj f
    simp only [ReleaseCompactionFiles, MarkFilesBeingCompacted, Bool.false_eq_true,
      if_false, List.mem_filter, decide_eq_true_iff]
    constructor
    · rintro ⟨hmem, hnc⟩
      obtain ⟨c', hc', hf⟩ := (h f).mp hmem
      have hne : c' ≠ c := fun e => hnc (e ▸ hf)
      exact ⟨c', (List.mem_erase_of_ne hne).mpr hc', hf⟩
    · rintro ⟨c', hc'e, hf⟩
      refine ⟨(h f).mpr ⟨c', List.mem_of_mem_erase hc'e, hf⟩, ?_⟩
      intro hfc
      exact hdisj f hfc c' hc'e hf

/-- Witness for C5's amended theorem: both preserved parts at concrete
states. -/
theorem inflight_invariant_preservation_witness :
    inflightInvariant (pickCompactionRegister [5] ⟨[], []⟩) ∧
      inflightInvariant (ReleaseCompactionFiles [5] ⟨[5], [[5]]⟩) := by
  have base : inflightInvariant ⟨[], []⟩ := by intro f; simp [inflightInvariant]
  have st1 : inflightInvariant ⟨[5], [[5]]⟩ := by
    intro f
    simp [inflightInvariant]
  exact ⟨inflight_invariant_preservation.1 [5] ⟨[], []⟩ base,
    inflight_invariant_preservation.2 [5] ⟨[5], [[5]]⟩ st1 (by simp)⟩

/-- The truncation loop of `CompactionPicker::CompactRange` for
`input_level > 0`: walk the overlapping files accumulating
`compensated_file_size` into a `uint64_t` total; at the first index `i`
(with `i + 1 < n`, so the last file never triggers truncation) where the
total reaches the limit, set `*compaction_end` to `inputs[i+1]->smallest`
and resize the inputs to `inputs[0..i]`. -/
def compactRangeCapWalk (limit : Nat) :
    Nat → List FileMetaData → List FileMetaData × Option Nat
  | _, [] => ([], none)
  | _, [f] => ([f], none)
  | total, f :: g :: rest =>
      let t := add64 total f.compensated_file_size
      if limit ≤ t then ([f], some g.smallest)
      else
        let r := compactRangeCapWalk limit t (g :: rest)
        (f :: r.1, r.2)

/-- The `input_level > 0` cap of `CompactRange` with its limit
`MaxFileSizeForLevel(input_level) * source_compaction_factor` (a `uint64_t`
product). -/
def compactRangeCap (maxFileSizeForLevel sourceCompactionFactor : Nat)
    (inputs : List FileMetaData) : List FileMetaData × Option Nat :=
  compactRangeCapWalk (mul64 maxFileSizeForLevel sourceCompactionFactor) 0 inputs

/-- `foldl` accumulation of compensated sizes over an arbitrary start. -/
theorem sumCompensated_foldl (l : List FileMetaData) :
    ∀ n : Nat, l.foldl (fun sum f => sum + f.compensated_file_size) n =
      n + sumCompensated l := by
  induction l with
  | nil => intro n; simp [sumCompensated]
  | cons f rest ih =>
      intro n
      rw [List.foldl_cons, ih (n + f.compensated_file_size)]
      have hc : sumCompensated (f :: rest) =
          rest.foldl (fun sum g => sum + g.compensated_file_size)
            (0 + f.compensated_file_size) := rfl
      rw [hc, ih (0 + f.compensated_file_size)]
      omega

theorem sumCompensated_cons (f : FileMetaData) (l : List FileMetaData) :
    sumCompensated (f :: l) = f.compensated_file_size + sumCompensated l := by
  simp only [sumCompensated, List.foldl_cons, Nat.zero_add]
  exact sumCompensated_foldl l f.compensated_file_size

theorem add64_eq_of_lt {a b : Nat} (h : a + b < w64) : add64 a b = a + b :=
  Nat.mod_eq_of_lt h

/-- The cap walk picks exactly the prefix up to the first index whose prefix
sum reaches the limit, and reports the following file's smallest key. -/
theorem compactRangeCapWalk_least_index :
    ∀ (inputs : List FileMetaData) (total limit i : Nat),
      total + sumCompensated inputs < w64 →
      i + 1 < inputs.length →
      limit ≤ total + sumCompensated (inputs.take (i + 1)) →
      (∀ j, j < i → total + sumCompensated (inputs.take (j + 1)) < limit) →
      compactRangeCapWalk limit total inputs =
        (inputs.take (i + 1), inputs[i + 1]?.map (fun f => f.smallest)) := by
  intro inputs
  induction inputs with
  | nil => intro total limit i hov h1; simp at h1
  | cons f rest ih =>
      intro total limit i hov h1 h2 h3
      match rest, h1, h2, h3, hov with
      | g :: rest', h1, h2, h3, hov =>
        have hcons : sumCompensated (f :: g :: rest') =
            f.compensated_file_size + sumCompensated (g :: rest') :=
          sumCompensated_cons f (g :: rest')
        have hfb : total + f.compensated_file_size < w64 := by omega
        have ht : add64 total f.compensated_file_size =
            total + f.compensated_file_size := add64_eq_of_lt hfb
        cases i with
        | zero =>
            have htake : (f :: g :: rest').take (0 + 1) = [f] := rfl
            have hsum1 : sumCompensated [f] = 0 + f.compensated_file_size := rfl
            rw [htake, hsum1] at h2
            have h2' : limit ≤ total + f.compensated_file_size := by omega
            simp only [compactRangeCapWalk, ht, if_pos h2']
            simp
        | succ i' =>
            have htake0 : (f :: g :: rest').take (0 + 1) = [f] := rfl
            have hsum1 : sumCompensated [f] = 0 + f.compensated_file_size := rfl
            have hlt : total + f.compensated_file_size < limit := by
              have h30 := h3 0 (Nat.succ_pos i')
              rw [htake0, hsum1] at h30
              omega
            simp only [compactRangeCapWalk, ht, if_neg (not_le.mpr hlt)]
            have htake2 : (f :: g :: rest').take (i' + 1 + 1) =
                f :: (g :: rest').take (i' + 1) := rfl
            have hrec := ih (total + f.compensated_file_size) limit i'
              (by omega)
              (by simp only [List.length_cons] at h1 ⊢; omega)
              (by
                rw [htake2, sumCompensated_cons] at h2
                omega)
              (by
                intro j hj
                have h3j := h3 (j + 1) (by omega)
                have htakej : (f :: g :: rest').take (j + 1 + 1) =
                    f :: (g :: rest').take (j + 1) := rfl
                rw [htakej, sumCompensated_cons] at h3j
                omega)
            rw [hrec]
            simp

/-- C1 counterexample: three 300-unit files under a 500-unit limit.  The
walk adds file sizes before comparing, so the file that crosses the limit is
itself kept: the cap picks the first TWO files and sets `*compaction_end` to
the THIRD file's smallest key — not, as the claim states, exactly the first
file with `*compaction_end` at the second file's smallest key.  (Keys: `aa`
through `ff` are 1 through 6; the three files do overlap the requested
range, as in the claim's scenario.) -/
theorem compactRangeCap_three_files_cex :
    GetOverlappingInputs
        [⟨1, 1, 2, 300, 300, false⟩, ⟨2, 3, 4, 300, 300, false⟩,
          ⟨3, 5, 6, 300, 300, false⟩] (some 1) (some 6) =
      [⟨1, 1, 2, 300, 300, false⟩, ⟨2, 3, 4, 300, 300, false⟩,
        ⟨3, 5, 6, 300, 300, false⟩] ∧
    compactRangeCap 500 1
        [⟨1, 1, 2, 300, 300, false⟩, ⟨2, 3, 4, 300, 300, false⟩,
          ⟨3, 5, 6, 300, 300, false⟩] =
      ([⟨1, 1, 2, 300, 300, false⟩, ⟨2, 3, 4, 300, 300, false⟩], some 5) ∧
    (([⟨1, 1, 2, 300, 300, false⟩, ⟨2, 3, 4, 300, 300, false⟩], some 5) :
        List FileMetaData × Option Nat) ≠
      ([⟨1, 1, 2, 300, 300, false⟩], some 3) := by
  refine ⟨by decide, by decide, by decide⟩

/-- C1 (amended): for `input_level > 0`, the cap walks the overlapping files
accumulating `compensated_file_size` and truncates at the first index `i`
(the last file excluded) whose running total reaches
`MaxFileSizeForLevel(input_level) * source_compaction_factor`; the files
`inputs[0..i]` — including the file that crossed the limit — are kept and
`*compaction_end` is set to the smallest key of `inputs[i+1]`, the first
excluded file.  On three 300-unit files with a 500-unit limit this keeps the
first two files and sets `*compaction_end` to the third file's smallest key. -/
theorem compactRangeCap_truncation (m s : Nat) (inputs : List FileMetaData)
    (i : Nat) (hov : sumCompensated inputs < w64)
    (h1 : i + 1 < inputs.length)
    (h2 : mul64 m s ≤ sumCompensated (inputs.take (i + 1)))
    (h3 : ∀ j, j < i → sumCompensated (inputs.take (j + 1)) < mul64 m s) :
    compactRangeCap m s inputs =
      (inputs.take (i + 1), inputs[i + 1]?.map (fun f => f.smallest)) := by
  unfold compactRangeCap
  exact compactRangeCapWalk_least_index inputs 0 (mul64 m s) i
    (by omega) h1 (by omega) (fun j hj => by have := h3 j hj; omega)

/-- Witness for C1's amended theorem at the claim's own scenario (truncation
at index 1). -/
theorem compactRangeCap_truncation_witness :
    compactRangeCap 500 1
        [⟨1, 1, 2, 300, 300, false⟩, ⟨2, 3, 4, 300, 300, false⟩,
          ⟨3, 5, 6, 300, 300, false⟩] =
      ([⟨1, 1, 2, 300, 300, false⟩, ⟨2, 3, 4, 300, 300, false⟩], some 5) := by
  have h := compactRangeCap_truncation 500 1
    [⟨1, 1, 2, 300, 300, false⟩, ⟨2, 3, 4, 300, 300, false⟩,
      ⟨3, 5, 6, 300, 300, false⟩] 1
    (by decide) (by decide) (by decide) (by decide)
  simpa using h

/-- The deletion walk of `FIFOCompactionPicker::PickCompaction`: iterate the
level-0 files oldest first (the source walks `files_[0]` in reverse),
subtract each file's compensated size from the running `uint64_t` total,
pick the file, and stop as soon as the total is within the cap. -/
def fifoDeleteWalk (maxTableFilesSize : Nat) :
    List FileMetaData → Nat → List FileMetaData
  | [], _ => []
  | f :: rest, total =>
      let t := sub64 total f.compensated_file_size
      f :: (if t ≤ maxTableFilesSize then []
            else fifoDeleteWalk maxTableFilesSize rest t)

/-- `FIFOCompactionPicker::PickCompaction`, reduced to the picked
`inputs_[0]` (oldest first): return nothing when the total compensated size
does not exceed `max_table_files_size` or the level is empty, or when a FIFO
compaction is already executing; otherwise the deletion-only pick. -/
def FIFOPickCompaction (files : List FileMetaData)
    (maxTableFilesSize : Nat) (inProgress0 : Nat) :
    Option (List FileMetaData) :=
  if TotalCompensatedFileSize files ≤ maxTableFilesSize || files.isEmpty then
    none
  else if 0 < inProgress0 then none
  else some (fifoDeleteWalk maxTableFilesSize files.reverse
    (TotalCompensatedFileSize files))

theorem sub64_eq_of_le {a b : Nat} (hba : b ≤ a) (ha : a < w64) :
    sub64 a b = a - b := by
  have hb : b % w64 = b := Nat.mod_eq_of_lt (lt_of_le_of_lt hba ha)
  unfold sub64
  rw [hb]
  have h1 : a + w64 - b = (a - b) + w64 := by omega
  rw [h1, Nat.add_mod_right]
  exact Nat.mod_eq_of_lt (by omega)

theorem sumCompensated_append (l₁ l₂ : List FileMetaData) :
    sumCompensated (l₁ ++ l₂) = sumCompensated l₁ + sumCompensated l₂ := by
  induction l₁ with
  | nil =>
      have h0 : sumCompensated ([] : List FileMetaData) = 0 := rfl
      simp [h0]
  | cons f rest ih =>
      rw [List.cons_append, sumCompensated_cons, sumCompensated_cons, ih]
      omega

theorem sumCompensated_reverse (l : List FileMetaData) :
    sumCompensated l.reverse = sumCompensated l := by
  induction l with
  | nil => rfl
  | cons f rest ih =>
      rw [List.reverse_cons, sumCompensated_append, ih]
      have h1 : sumCompensated [f] =
          f.compensated_file_size + sumCompensated [] := sumCompensated_cons f []
      have h0 : sumCompensated ([] : List FileMetaData) = 0 := rfl
      have h2 : sumCompensated (f :: rest) =
          f.compensated_file_size + sumCompensated rest := sumCompensated_cons f rest
      omega

theorem totalCompensated_eq_sum_mod (l : List FileMetaData) :
    TotalCompensatedFileSize l = sumCompensated l % w64 := by
  have key : ∀ (l : List FileMetaData) (n : Nat), n < w64 →
      l.foldl (fun sum f => add64 sum f.compensated_file_size) n =
        (n + sumCompensated l) % w64 := by
    intro l
    induction l with
    | nil =>
        intro n hn
        have h0 : sumCompensated ([] : List FileMetaData) = 0 := rfl
        simp [h0, Nat.mod_eq_of_lt hn]
    | cons f rest ih =>
        intro n hn
        rw [List.foldl_cons]
        have hlt : add64 n f.compensated_file_size < w64 := by
          unfold add64
          exact Nat.mod_lt _ (by decide)
        rw [ih (add64 n f.compensated_file_size) hlt]
        rw [sumCompensated_cons]
        unfold add64
        rw [Nat.mod_add_mod, Nat.add_assoc]
  have h := key l 0 (by decide)
  have h0 : (0 : Nat) + sumCompensated l = sumCompensated l := by omega
  rw [h0] at h
  exact h

/-- The FIFO deletion walk picks a prefix of the oldest-first list, and if it
stops before exhausting the list, the running total at the stop is within
the cap. -/
theorem fifoDeleteWalk_spec :
    ∀ (rl : List FileMetaData) (total maxT : Nat), total < w64 →
      sumCompensated rl ≤ total →
      ∃ p q, rl = p ++ q ∧ fifoDeleteWalk maxT rl total = p ∧
        (q = [] ∨ total - sumCompensated p ≤ maxT) := by
  intro rl
  induction rl with
  | nil =>
      intro total maxT hov hsum
      exact ⟨[], [], rfl, rfl, Or.inl rfl⟩
  | cons f rest ih =>
      intro total maxT hov hsum
      rw [sumCompensated_cons] at hsum
      have hsub : sub64 total f.compensated_file_size =
          total - f.compensated_file_size :=
        sub64_eq_of_le (by omega) hov
      by_cases hstop : total - f.compensated_file_size ≤ maxT
      · refine ⟨[f], rest, rfl, ?_, Or.inr ?_⟩
        · simp only [fifoDeleteWalk, hsub, if_pos hstop]
        · have h1 : sumCompensated [f] =
              f.compensated_file_size + sumCompensated [] :=
            sumCompensated_cons f []
          have h0 : sumCompensated ([] : List FileMetaData) = 0 := rfl
          omega
      · obtain ⟨p', q', hpq, hwalk, hq⟩ :=
          ih (total - f.compensated_file_size) maxT (by omega) (by omega)
        refine ⟨f :: p', q', by rw [hpq]; rfl, ?_, ?_⟩
        · simp only [fifoDeleteWalk, hsub, if_neg hstop, hwalk]
        · rcases hq with hq | hq
          · exact Or.inl hq
          · refine Or.inr ?_
            rw [sumCompensated_cons]
            omega

/-- C4: FIFO `PickCompaction` returns nothing exactly when the total
compensated size is within `max_table_files_size`, the level is empty, or a
FIFO compaction is in flight; otherwise it picks a non-empty batch of the
oldest files (the reverse of a suffix of the newest-first list), oldest
first, such that the remaining (unpicked) files' compensated sizes sum to at
most `max_table_files_size`. -/
theorem fifoPickCompaction_spec (files : List FileMetaData)
    (maxT inProgress0 : Nat) (hov : sumCompensated files < w64) :
    (FIFOPickCompaction files maxT inProgress0 = none ↔
      sumCompensated files ≤ maxT ∨ files = [] ∨ 0 < inProgress0) ∧
    (∀ picked, FIFOPickCompaction files maxT inProgress0 = some picked →
      ∃ k, k < files.length ∧ picked = (files.drop k).reverse ∧
        picked ≠ [] ∧ sumCompensated (files.take k) ≤ maxT) := by
  have htot : TotalCompensatedFileSize files = sumCompensated files := by
    rw [totalCompensated_eq_sum_mod, Nat.mod_eq_of_lt hov]
  constructor
  · unfold FIFOPickCompaction
    rw [htot]
    by_cases hA : (decide (sumCompensated files ≤ maxT) || files.isEmpty) = true
    · rw [if_pos hA]
      have hA' : sumCompensated files ≤ maxT ∨ files = [] := by
        simpa [List.isEmpty_iff] using hA
      constructor
      · intro _; tauto
      · intro _; rfl
    · rw [if_neg hA]
      have hA' : ¬(sumCompensated files ≤ maxT) ∧ files ≠ [] := by
        simpa [List.isEmpty_iff, not_or] using hA
      by_cases hB : 0 < inProgress0
      · rw [if_pos hB]
        constructor
        · intro _; exact Or.inr (Or.inr hB)
        · intro _; rfl
      · rw [if_neg hB]
        constructor
        · intro h; exact absurd h (by simp)
        · rintro (h | h | h)
          · exact absurd h hA'.1
          · exact absurd h hA'.2
          · exact absurd h hB
  · intro picked hpick
    unfold FIFOPickCompaction at hpick
    rw [htot] at hpick
    by_cases hA : (decide (sumCompensated files ≤ maxT) || files.isEmpty) = true
    · rw [if_pos hA] at hpick; exact absurd hpick (by simp)
    · rw [if_neg hA] at hpick
      have hA' : ¬(sumCompensated files ≤ maxT) ∧ files ≠ [] := by
        simpa [List.isEmpty_iff, not_or] using hA
      by_cases hB : 0 < inProgress0
      · rw [if_pos hB] at hpick; exact absurd hpick (by simp)
      · rw [if_neg hB] at hpick
        obtain ⟨p, q, hpq, hwalk, hq⟩ := fifoDeleteWalk_spec files.reverse
          (sumCompensated files) maxT hov
          (le_of_eq (sumCompensated_reverse files))
        have hpicked : picked = p := by
          simp only [Option.some.injEq] at hpick
          rw [← hpick, hwalk]
        have hfiles : files = q.reverse ++ p.reverse := by
          have h := congrArg List.reverse hpq
          rw [List.reverse_reverse, List.reverse_append] at h
          exact h
        have hpne : p ≠ [] := by
          intro hp
          rw [hp] at hpq hwalk
          cases hrev : files.reverse with
          | nil => exact hA'.2 (by simpa using congrArg List.reverse hrev)
          | cons a l =>
              rw [hrev] at hwalk
              simp [fifoDeleteWalk] at hwalk
        refine ⟨q.reverse.length, ?_, ?_, ?_, ?_⟩
        · have hplen : 0 < p.reverse.length := by
            cases hp : p with
            | nil => exact absurd hp hpne
            | cons a l => simp [hp]
          rw [hfiles]
          simp only [List.length_append]
          omega
        · rw [hfiles, hpicked, List.drop_left, List.reverse_reverse]
        · rw [hpicked]
          exact hpne
        · rw [hfiles, List.take_left]
          rcases hq with hq | hq
          · subst hq
            have h0 : sumCompensated (List.reverse ([] : List FileMetaData)) = 0 := rfl
            omega
          · have e1 : sumCompensated files =
                sumCompensated q.reverse + sumCompensated p.reverse := by
              rw [hfiles, sumCompensated_append]
            have e2 : sumCompensated p.reverse = sumCompensated p :=
              sumCompensated_reverse p
            omega

/-- Witness for C4 at the spec's S5 scenario: cap 1000, newest-first sizes
600, 300, 400; only the oldest file (size 400) is evicted and the remaining
sizes sum to 900 ≤ 1000. -/
theorem fifoPickCompaction_spec_witness :
    ∃ k, k < ([⟨1, 0, 0, 600, 600, false⟩, ⟨2, 0, 0, 300, 300, false⟩,
        ⟨3, 0, 0, 400, 400, false⟩] : List FileMetaData).length ∧
      ([⟨3, 0, 0, 400, 400, false⟩] : List FileMetaData) =
        (([⟨1, 0, 0, 600, 600, false⟩, ⟨2, 0, 0, 300, 300, false⟩,
          ⟨3, 0, 0, 400, 400, false⟩] : List FileMetaData).drop k).reverse ∧
      ([⟨3, 0, 0, 400, 400, false⟩] : List FileMetaData) ≠ [] ∧
      sumCompensated (([⟨1, 0, 0, 600, 600, false⟩, ⟨2, 0, 0, 300, 300, false⟩,
        ⟨3, 0, 0, 400, 400, false⟩] : List FileMetaData).take k) ≤ 1000 :=
  (fifoPickCompaction_spec
    [⟨1, 0, 0, 600, 600, false⟩, ⟨2, 0, 0, 300, 300, false⟩,
      ⟨3, 0, 0, 400, 400, false⟩] 1000 0 (by decide)).2
    [⟨3, 0, 0, 400, 400, false⟩] (by decide)

theorem mul64_eq_of_lt {a b : Nat} (h : a * b < w64) : mul64 a b = a * b :=
  Nat.mod_eq_of_lt h

theorem sumCompensated_take_le (l : List FileMetaData) (k : Nat) :
    sumCompensated (l.take k) ≤ sumCompensated l := by
  conv_rhs => rw [← List.take_append_drop k l]
  rw [sumCompensated_append]
  omega

theorem sumCompensated_drop_le (l : List FileMetaData) (k : Nat) :
    sumCompensated (l.drop k) ≤ sumCompensated l := by
  conv_rhs => rw [← List.take_append_drop k l]
  rw [sumCompensated_append]
  omega

/-- The leading skip of `PickCompactionUniversalSizeAmp`: the first index in
`[0, n-1)` whose file is not being compacted (the loop never looks at the
oldest file, index `n-1`); `none` when every such file is being compacted. -/
def sizeAmpSkip (files : List FileMetaData) : Option Nat :=
  (List.range (files.length - 1)).find?
    (fun i => !(files.getD i default).being_compacted)

/-- `UniversalCompactionPicker::PickCompactionUniversalSizeAmp`, reduced to
the picked `inputs_[0]` and the compression-enable flag.  After skipping
leading in-compaction files, any in-compaction file among
`files[start..n-2]` aborts; `candidate_size` is the `uint64_t` sum of the
compensated sizes of `files[start..n-2]` (the oldest file excluded),
`earliest_file_size` is the oldest file's raw size, and the pick of
`files[start..n-1]` happens iff `candidate_size * 100 >=
max_size_amplification_percent * earliest_file_size`; output compression is
always enabled (`GetCompressionType` is called with the default
`enable_compression = true`). -/
def PickCompactionUniversalSizeAmp (files : List FileMetaData)
    (ampPercent : Nat) : Option (List FileMetaData × Bool) :=
  match sizeAmpSkip files with
  | none => none
  | some start =>
      let newer := (files.take (files.length - 1)).drop start
      if FilesInCompaction newer then none
      else if newer.length = 0 then none
      else
        let candidate_size := TotalCompensatedFileSize newer
        let earliest_file_size := (files.getLastD default).file_size
        if mul64 candidate_size 100 < mul64 ampPercent earliest_file_size then
          none
        else some (files.drop start, true)

/-- C2: in the size-amplification sub-policy (writing `start` for the first
non-compacting index among all but the oldest file, and `newer` for
`files[start..n-2]`): no candidate start means no pick; a being-compacted
file in `newer` means no pick; otherwise all of `files[start..n-1]` — through
the oldest — is picked, with compression enabled, exactly when
`candidate_size * 100 ≥ max_size_amplification_percent * earliest_file_size`
where `candidate_size` sums compensated sizes over `newer` (oldest excluded)
and `earliest_file_size` is the oldest file's raw size. -/
theorem universalSizeAmp_spec (files : List FileMetaData) (ampPercent : Nat)
    (h100 : sumCompensated files * 100 < w64)
    (hamp : ampPercent * (files.getLastD default).file_size < w64) :
    (sizeAmpSkip files = none → PickCompactionUniversalSizeAmp files ampPercent = none) ∧
    (∀ start, sizeAmpSkip files = some start →
      FilesInCompaction ((files.take (files.length - 1)).drop start) = true →
      PickCompactionUniversalSizeAmp files ampPercent = none) ∧
    (∀ start, sizeAmpSkip files = some start →
      FilesInCompaction ((files.take (files.length - 1)).drop start) = false →
      PickCompactionUniversalSizeAmp files ampPercent =
        if sumCompensated ((files.take (files.length - 1)).drop start) * 100 <
            ampPercent * (files.getLastD default).file_size then none
        else some (files.drop start, true)) := by
  refine ⟨?_, ?_, ?_⟩
  · intro h
    simp only [PickCompactionUniversalSizeAmp, h]
  · intro start h hbusy
    simp only [PickCompactionUniversalSizeAmp, h, hbusy]
    rfl
  · intro start h hfree
    have hmem : start ∈ List.range (files.length - 1) :=
      List.mem_of_find?_eq_some h
    have hstart : start < files.length - 1 := List.mem_range.mp hmem
    have hnlen : ((files.take (files.length - 1)).drop start).length ≠ 0 := by
      rw [List.length_drop, List.length_take]
      omega
    have hsumle : sumCompensated ((files.take (files.length - 1)).drop start) ≤
        sumCompensated files :=
      le_trans (sumCompensated_drop_le _ _) (sumCompensated_take_le _ _)
    have htot : TotalCompensatedFileSize ((files.take (files.length - 1)).drop start) =
        sumCompensated ((files.take (files.length - 1)).drop start) := by
      rw [totalCompensated_eq_sum_mod]
      exact Nat.mod_eq_of_lt (by omega)
    have hm1 : mul64 (sumCompensated ((files.take (files.length - 1)).drop start)) 100 =
        sumCompensated ((files.take (files.length - 1)).drop start) * 100 :=
      mul64_eq_of_lt (by omega)
    have hm2 : mul64 ampPercent (files.getLastD default).file_size =
        ampPercent * (files.getLastD default).file_size :=
      mul64_eq_of_lt hamp
    simp only [PickCompactionUniversalSizeAmp, h, hfree, htot, hm1, hm2]
    simp only [Bool.false_eq_true, if_false, if_neg hnlen]

/-- Witness for C2 at the spec's S3 scenario: newest-first files of sizes
100, 100, 100 and oldest of raw size 1000, `max_size_amplification_percent`
25: candidate 300, `300*100 = 30000 ≥ 25*1000 = 25000`, so all four files
are picked with compression enabled. -/
theorem universalSizeAmp_spec_witness :
    PickCompactionUniversalSizeAmp
        [⟨4, 0, 0, 100, 100, false⟩, ⟨3, 0, 0, 100, 100, false⟩,
          ⟨2, 0, 0, 100, 100, false⟩, ⟨1, 0, 0, 1000, 1000, false⟩] 25 =
      some ([⟨4, 0, 0, 100, 100, false⟩, ⟨3, 0, 0, 100, 100, false⟩,
        ⟨2, 0, 0, 100, 100, false⟩, ⟨1, 0, 0, 1000, 1000, false⟩], true) := by
  have h := (universalSizeAmp_spec
    [⟨4, 0, 0, 100, 100, false⟩, ⟨3, 0, 0, 100, 100, false⟩,
      ⟨2, 0, 0, 100, 100, false⟩, ⟨1, 0, 0, 1000, 1000, false⟩] 25
    (by decide) (by decide)).2.2 0 (by decide) (by decide)
  simpa using h

/-- Counterexample to C2 as frozen: the claim's "returns nothing if any
later file is being compacted" includes the oldest file, but the busy-check
loop runs `for (unsigned int loop = start_index; loop < files.size() - 1;
loop++)` and never examines the oldest file; with a free newest file of
compensated size 100, a being-compacted oldest file of raw size 100 and
`max_size_amplification_percent = 50` (so `100 * 100 ≥ 50 * 100`), the
sub-policy returns a compaction that INCLUDES the in-flight oldest file
instead of returning nothing. -/
theorem universalSizeAmp_busy_oldest_cex :
    (⟨1, 0, 0, 100, 100, true⟩ : FileMetaData).being_compacted = true ∧
    PickCompactionUniversalSizeAmp
        [⟨2, 0, 0, 100, 100, false⟩, ⟨1, 0, 0, 100, 100, true⟩] 50 =
      some ([⟨2, 0, 0, 100, 100, false⟩, ⟨1, 0, 0, 100, 100, true⟩],
        true) := by
  constructor
  · rfl
  · decide

/-- The run-collection loop of `PickCompactionUniversalReadAmp`: with `cnt`
files picked so far and `candidate_size` the running total (total-size stop
style) or the last picked file's compensated size (similar-size stop style),
extend over the succeeding files while the count is below the cap.  A
being-compacted file breaks the run.  The source computes the size checks in
`double` (`candidate_size * (100.0 + ratio) / 100.0 < next_file_size`,
and for similar-size `next_file_size * (100.0 + ratio) / 100.0 <
candidate_size`); they are embedded exactly as the corresponding rational
comparisons by cross-multiplication with 100.  `next_file_size` is the raw
`fd.GetFileSize()`, while the accumulation/replacement uses
`compensated_file_size`, as in the source. -/
def readAmpRun (similarSize : Bool) (rPct maxFiles : Nat) :
    Nat → Nat → List FileMetaData → Nat
  | cnt, _, [] => cnt
  | cnt, candidate_size, f :: rest =>
      if maxFiles ≤ cnt then cnt
      else if f.being_compacted then cnt
      else if candidate_size * (100 + rPct) < f.file_size * 100 then cnt
      else if similarSize then
        (if f.file_size * (100 + rPct) < candidate_size * 100 then cnt
         else readAmpRun similarSize rPct maxFiles (cnt + 1)
           f.compensated_file_size rest)
      else readAmpRun similarSize rPct maxFiles (cnt + 1)
        (add64 candidate_size f.compensated_file_size) rest

/-- The outer loop of `PickCompactionUniversalReadAmp`: at each start
position, skipping files already being compacted, collect a run starting at
the first free file; accept the first run of length at least `minW`
(`min_merge_width`), else advance to the next start position.  Returns the
accepted start index and run length. -/
def readAmpOuter (similarSize : Bool) (rPct maxFiles minW : Nat) :
    List FileMetaData → Nat → Option (Nat × Nat)
  | [], _ => none
  | f :: rest, idx =>
      if f.being_compacted then
        readAmpOuter similarSize rPct maxFiles minW rest (idx + 1)
      else
        let cnt := readAmpRun similarSize rPct maxFiles 1
          f.compensated_file_size rest
        if minW ≤ cnt then some (idx, cnt)
        else readAmpOuter similarSize rPct maxFiles minW rest (idx + 1)

/-- `UniversalCompactionPicker::PickCompactionUniversalReadAmp`, reduced to
the picked `inputs_[0]`: `min_merge_width` is clamped to at least 2, the run
length is capped at `min(max_merge_width, max_number_of_files_to_compact)`,
and the picked files are `files[start_index .. start_index + count)`. -/
def PickCompactionUniversalReadAmp (similarSize : Bool)
    (rPct minMergeW maxMergeW maxNumberOfFilesToCompact : Nat)
    (files : List FileMetaData) : Option (List FileMetaData) :=
  match readAmpOuter similarSize rPct (min maxMergeW maxNumberOfFilesToCompact)
      (max minMergeW 2) files 0 with
  | none => none
  | some r => some ((files.drop r.1).take r.2)

theorem readAmpRun_le_max (similarSize : Bool) (rPct maxFiles : Nat) :
    ∀ (l : List FileMetaData) (cnt cand : Nat),
      readAmpRun similarSize rPct maxFiles cnt cand l ≤ max cnt maxFiles := by
  intro l
  induction l with
  | nil => intro cnt cand; exact le_max_left _ _
  | cons f rest ih =>
      intro cnt cand
      unfold readAmpRun
      by_cases h1 : maxFiles ≤ cnt
      · rw [if_pos h1]; exact le_max_left _ _
      · rw [if_neg h1]
        have hsucc : max (cnt + 1) maxFiles ≤ max cnt maxFiles := by
          have : max (cnt + 1) maxFiles = maxFiles := by omega
          omega
        by_cases h2 : f.being_compacted
        · rw [if_pos h2]; exact le_max_left _ _
        · rw [if_neg h2]
          by_cases h3 : cand * (100 + rPct) < f.file_size * 100
          · rw [if_pos h3]; exact le_max_left _ _
          · rw [if_neg h3]
            by_cases h4 : similarSize
            · rw [if_pos h4]
              by_cases h5 : f.file_size * (100 + rPct) < cand * 100
              · rw [if_pos h5]; exact le_max_left _ _
              · rw [if_neg h5]
                exact le_trans (ih (cnt + 1) f.compensated_file_size) hsucc
            · rw [if_neg h4]
              exact le_trans (ih (cnt + 1) (add64 cand f.compensated_file_size))
                hsucc

theorem readAmpRun_le_len (similarSize : Bool) (rPct maxFiles : Nat) :
    ∀ (l : List FileMetaData) (cnt cand : Nat),
      readAmpRun similarSize rPct maxFiles cnt cand l ≤ cnt + l.length := by
  intro l
  induction l with
  | nil => intro cnt cand; simp [readAmpRun]
  | cons f rest ih =>
      intro cnt cand
      unfold readAmpRun
      by_cases h1 : maxFiles ≤ cnt
      · rw [if_pos h1]; simp
      · rw [if_neg h1]
        by_cases h2 : f.being_compacted
        · rw [if_pos h2]; simp
        · rw [if_neg h2]
          by_cases h3 : cand * (100 + rPct) < f.file_size * 100
          · rw [if_pos h3]; simp
          · rw [if_neg h3]
            by_cases h4 : similarSize
            · rw [if_pos h4]
              by_cases h5 : f.file_size * (100 + rPct) < cand * 100
              · rw [if_pos h5]; simp
              · rw [if_neg h5]
                have := ih (cnt + 1) f.compensated_file_size
                simp only [List.length_cons]
                omega
            · rw [if_neg h4]
              have := ih (cnt + 1) (add64 cand f.compensated_file_size)
              simp only [List.length_cons]
              omega

theorem readAmpOuter_some (similarSize : Bool) (rPct maxFiles minW : Nat) :
    ∀ (l : List FileMetaData) (idx start cnt : Nat),
      readAmpOuter similarSize rPct maxFiles minW l idx = some (start, cnt) →
      minW ≤ cnt ∧ idx ≤ start ∧
        ∃ f rest', l.drop (start - idx) = f :: rest' ∧
          cnt = readAmpRun similarSize rPct maxFiles 1
            f.compensated_file_size rest' := by
  intro l
  induction l with
  | nil => intro idx start cnt h; exact absurd h (by simp [readAmpOuter])
  | cons f rest ih =>
      intro idx start cnt h
      unfold readAmpOuter at h
      by_cases hb : f.being_compacted
      · rw [if_pos hb] at h
        obtain ⟨hmin, hle, f', rest', hdrop, hcnt⟩ := ih (idx + 1) start cnt h
        refine ⟨hmin, by omega, f', rest', ?_, hcnt⟩
        have hk : start - idx = (start - (idx + 1)) + 1 := by omega
        rw [hk, List.drop_succ_cons]
        exact hdrop
      · rw [if_neg hb] at h
        by_cases hacc : minW ≤ readAmpRun similarSize rPct maxFiles 1
            f.compensated_file_size rest
        · rw [if_pos hacc] at h
          obtain ⟨rfl, rfl⟩ : start = idx ∧
              cnt = readAmpRun similarSize rPct maxFiles 1
                f.compensated_file_size rest := by
            have := h
            simp only [Option.some.injEq, Prod.mk.injEq] at this
            exact ⟨this.1.symm, this.2.symm⟩
          exact ⟨hacc, le_refl _, f, rest, by simp, rfl⟩
        · rw [if_neg hacc] at h
          obtain ⟨hmin, hle, f', rest', hdrop, hcnt⟩ := ih (idx + 1) start cnt h
          refine ⟨hmin, by omega, f', rest', ?_, hcnt⟩
          have hk : start - idx = (start - (idx + 1)) + 1 := by omega
          rw [hk, List.drop_succ_cons]
          exact hdrop

/-- C3: the similar-size size-ratio sub-policy.  (1) On level-0 files of
sizes 100, 110, 120, 5000, 5500 (newest to oldest, none being compacted)
with `size_ratio = 20`, `min_merge_width = 2`, `max_merge_width = 8` and an
unbounded file cap, the picked `inputs_[0]` is exactly the files of sizes
100, 110, 120.  (2) Any pick is a contiguous run of length at least the
clamped `min_merge_width` and at most `min(max_merge_width,
max_number_of_files_to_compact)`.  (3)–(6) The run-extension rules: a
being-compacted file (or the cap) breaks the run; the run stops when
`next_file_size > candidate_size * (100 + ratio) / 100` or (similar-size)
when `next_file_size * (100 + ratio) / 100 < candidate_size` (both stated by
cross-multiplication); otherwise the next file is taken and
`candidate_size` is replaced (not summed) by its compensated size. -/
theorem universalReadAmp_spec :
    (PickCompactionUniversalReadAmp true 20 2 8 4294967295
        [⟨1, 0, 0, 100, 100, false⟩, ⟨2, 0, 0, 110, 110, false⟩,
          ⟨3, 0, 0, 120, 120, false⟩, ⟨4, 0, 0, 5000, 5000, false⟩,
          ⟨5, 0, 0, 5500, 5500, false⟩] =
      some [⟨1, 0, 0, 100, 100, false⟩, ⟨2, 0, 0, 110, 110, false⟩,
        ⟨3, 0, 0, 120, 120, false⟩]) ∧
    (∀ (similarSize : Bool) (rPct minMergeW maxMergeW maxN : Nat)
        (files picked : List FileMetaData),
      PickCompactionUniversalReadAmp similarSize rPct minMergeW maxMergeW
          maxN files = some picked →
      max minMergeW 2 ≤ picked.length ∧
        picked.length ≤ min maxMergeW maxN ∧
        ∃ start, start < files.length ∧
          picked = (files.drop start).take picked.length) ∧
    (∀ (similarSize : Bool) (rPct maxF cnt cand : Nat) (f : FileMetaData)
        (rest : List FileMetaData),
      maxF ≤ cnt ∨ f.being_compacted = true →
      readAmpRun similarSize rPct maxF cnt cand (f :: rest) = cnt) ∧
    (∀ (similarSize : Bool) (rPct maxF cnt cand : Nat) (f : FileMetaData)
        (rest : List FileMetaData),
      cnt < maxF → f.being_compacted = false →
      cand * (100 + rPct) < f.file_size * 100 →
      readAmpRun similarSize rPct maxF cnt cand (f :: rest) = cnt) ∧
    (∀ (rPct maxF cnt cand : Nat) (f : FileMetaData)
        (rest : List FileMetaData),
      cnt < maxF → f.being_compacted = false →
      f.file_size * 100 ≤ cand * (100 + rPct) →
      f.file_size * (100 + rPct) < cand * 100 →
      readAmpRun true rPct maxF cnt cand (f :: rest) = cnt) ∧
    (∀ (rPct maxF cnt cand : Nat) (f : FileMetaData)
        (rest : List FileMetaData),
      cnt < maxF → f.being_compacted = false →
      f.file_size * 100 ≤ cand * (100 + rPct) →
      cand * 100 ≤ f.file_size * (100 + rPct) →
      readAmpRun true rPct maxF cnt cand (f :: rest) =
        readAmpRun true rPct maxF (cnt + 1) f.compensated_file_size rest) := by
  refine ⟨by decide, ?_, ?_, ?_, ?_, ?_⟩
  · intro similarSize rPct minMergeW maxMergeW maxN files picked hpick
    simp only [PickCompactionUniversalReadAmp] at hpick
    cases houter : readAmpOuter similarSize rPct (min maxMergeW maxN)
        (max minMergeW 2) files 0 with
    | none => rw [houter] at hpick; exact absurd hpick (by simp)
    | some p =>
        rw [houter] at hpick
        obtain ⟨start, cnt⟩ := p
        simp only [Option.some.injEq] at hpick
        obtain ⟨hmin, -, f, rest', hdrop, hcnt⟩ :=
          readAmpOuter_some similarSize rPct (min maxMergeW maxN)
            (max minMergeW 2) files 0 start cnt houter
        rw [Nat.sub_zero] at hdrop
        have hlen_drop : (files.drop start).length = rest'.length + 1 := by
          rw [hdrop]; simp
        have hld : (files.drop start).length = files.length - start :=
          List.length_drop start files
        have hstart : start < files.length := by omega
        have hcap : cnt ≤ max 1 (min maxMergeW maxN) := by
          rw [hcnt]; exact readAmpRun_le_max _ _ _ rest' 1 f.compensated_file_size
        have hlen : cnt ≤ 1 + rest'.length := by
          rw [hcnt]; exact readAmpRun_le_len _ _ _ rest' 1 f.compensated_file_size
        have h2 : 2 ≤ cnt := le_trans (by omega) hmin
        have hcap' : cnt ≤ min maxMergeW maxN := by omega
        have hpicked_len : picked.length = cnt := by
          rw [← hpick, List.length_take, List.length_drop]
          omega
        refine ⟨?_, ?_, start, hstart, ?_⟩
        · rw [hpicked_len]; exact hmin
        · rw [hpicked_len]; exact hcap'
        · rw [hpicked_len, ← hpick]
  · intro similarSize rPct maxF cnt cand f rest h
    unfold readAmpRun
    rcases h with h | h
    · rw [if_pos h]
    · by_cases h1 : maxF ≤ cnt
      · rw [if_pos h1]
      · rw [if_neg h1, if_pos h]
  · intro similarSize rPct maxF cnt cand f rest h1 h2 h3
    unfold readAmpRun
    rw [if_neg (by omega), if_neg (by simp [h2]), if_pos h3]
  · intro rPct maxF cnt cand f rest h1 h2 h3 h4
    unfold readAmpRun
    rw [if_neg (by omega), if_neg (by simp [h2]), if_neg (by omega),
      if_pos rfl, if_pos h4]
  · intro rPct maxF cnt cand f rest h1 h2 h3 h4
    unfold readAmpRun
    rw [if_neg (by omega), if_neg (by simp [h2]), if_neg (by omega),
      if_pos rfl, if_neg (by omega)]
    rw [readAmpRun.eq_def]

/-- Witness for C3's quantified parts, at the S4 instance: the picked run of
the concrete scenario has length bounds `max 2 2 ≤ 3 ≤ min 8 4294967295` and
is a contiguous prefix run. -/
theorem universalReadAmp_spec_witness :
    max 2 2 ≤ ([⟨1, 0, 0, 100, 100, false⟩, ⟨2, 0, 0, 110, 110, false⟩,
        ⟨3, 0, 0, 120, 120, false⟩] : List FileMetaData).length ∧
      ([⟨1, 0, 0, 100, 100, false⟩, ⟨2, 0, 0, 110, 110, false⟩,
        ⟨3, 0, 0, 120, 120, false⟩] : List FileMetaData).length ≤
        min 8 4294967295 ∧
      ∃ start, start < ([⟨1, 0, 0, 100, 100, false⟩, ⟨2, 0, 0, 110, 110, false⟩,
          ⟨3, 0, 0, 120, 120, false⟩, ⟨4, 0, 0, 5000, 5000, false⟩,
          ⟨5, 0, 0, 5500, 5500, false⟩] : List FileMetaData).length ∧
        ([⟨1, 0, 0, 100, 100, false⟩, ⟨2, 0, 0, 110, 110, false⟩,
          ⟨3, 0, 0, 120, 120, false⟩] : List FileMetaData) =
          (([⟨1, 0, 0, 100, 100, false⟩, ⟨2, 0, 0, 110, 110, false⟩,
            ⟨3, 0, 0, 120, 120, false⟩, ⟨4, 0, 0, 5000, 5000, false⟩,
            ⟨5, 0, 0, 5500, 5500, false⟩] : List FileMetaData).drop start).take
            ([⟨1, 0, 0, 100, 100, false⟩, ⟨2, 0, 0, 110, 110, false⟩,
              ⟨3, 0, 0, 120, 120, false⟩] : List FileMetaData).length :=
  universalReadAmp_spec.2.1 true 20 2 8 4294967295
    [⟨1, 0, 0, 100, 100, false⟩, ⟨2, 0, 0, 110, 110, false⟩,
      ⟨3, 0, 0, 120, 120, false⟩, ⟨4, 0, 0, 5000, 5000, false⟩,
      ⟨5, 0, 0, 5500, 5500, false⟩]
    [⟨1, 0, 0, 100, 100, false⟩, ⟨2, 0, 0, 110, 110, false⟩,
      ⟨3, 0, 0, 120, 120, false⟩] (by decide)

/-- The picker's `Status` results; the message strings are elided, only the
status code matters to the spec. -/
inductive Status where
  | ok
  | invalidArgument
  | aborted
deriving DecidableEq

/-- The fields of `SstFileMetaData` (column-family metadata) that input
sanitization reads: file number, user-key range, in-flight flag. -/
structure SstFileMetaData where
  file_number : Nat
  smallestkey : Nat
  largestkey : Nat
  being_compacted : Bool
deriving DecidableEq, Inhabited

/-- `HaveOverlappingKeyRanges(c, a, b)`, with the source's four comparisons
flattened: block one tests `a.smallestkey` against `[b.smallestkey,
b.largestkey]` (falling through when `a.smallestkey > b.largestkey`), block
two tests `a.largestkey`; the user comparator is the order on `Nat` here. -/
def HaveOverlappingKeyRanges (a b : SstFileMetaData) : Bool :=
  (decide (b.smallestkey ≤ a.smallestkey) && decide (a.smallestkey ≤ b.largestkey)) ||
  (decide (a.smallestkey < b.smallestkey) && decide (b.smallestkey ≤ a.largestkey)) ||
  (decide (a.largestkey ≤ b.largestkey) && decide (b.smallestkey ≤ a.largestkey)) ||
  (decide (b.largestkey < a.largestkey) && decide (a.smallestkey ≤ b.largestkey))

/-- Insertion into the ascending `std::set<uint64_t>` of file numbers. -/
def setInsert (n : Nat) : List Nat → List Nat
  | [] => [n]
  | m :: rest =>
      if n < m then n :: m :: rest
      else if n = m then m :: rest
      else m :: setInsert n rest

/-- The running state of `SanitizeCompactionInputFilesForAllLevels`: the
input-file set and the accumulated compaction key range with its
initialisation flag. -/
structure SanState where
  input_files : List Nat
  smallestkey : Nat
  largestkey : Nat
  is_first : Bool
deriving DecidableEq

/-- Index of the first file of the level whose number is in the input set. -/
def firstIncludedIdx (s : List Nat) : List SstFileMetaData → Option Nat
  | [] => none
  | f :: rest =>
      if f.file_number ∈ s then some 0
      else (firstIncludedIdx s rest).map (· + 1)

/-- Index of the last file of the level whose number is in the input set. -/
def lastIncludedIdx (s : List Nat) : List SstFileMetaData → Option Nat
  | [] => none
  | f :: rest =>
      match lastIncludedIdx s rest with
      | some i => some (i + 1)
      | none => if f.file_number ∈ s then some 0 else none

/-- Steps of the leftward clean-cut extension (`while (first_included > 0)
... if (files[first-1].largestkey < files[first].smallestkey) break;`):
walk the predecessors nearest-first, extending while the previous file's
largest key reaches the current file's smallest key. -/
def extLeftSteps : SstFileMetaData → List SstFileMetaData → Nat
  | _, [] => 0
  | cf, p :: rest =>
      if cf.smallestkey ≤ p.largestkey then extLeftSteps p rest + 1 else 0

/-- Steps of the rightward clean-cut extension (successors nearest-first). -/
def extRightSteps : SstFileMetaData → List SstFileMetaData → Nat
  | _, [] => 0
  | cf, nf :: rest =>
      if nf.smallestkey ≤ cf.largestkey then extRightSteps nf rest + 1 else 0

/-- The files at indices `[a..b]` of a level. -/
def levelSlice (files : List SstFileMetaData) (a b : Nat) :
    List SstFileMetaData :=
  (files.drop a).take (b + 1 - a)

/-- The inclusion loop `for (int f = first_included; f <= last_included;
++f)`: abort on a being-compacted file, else insert its number. -/
def includeFiles (s : List Nat) : List SstFileMetaData → Except Status (List Nat)
  | [] => .ok s
  | f :: rest =>
      if f.being_compacted then .error .aborted
      else includeFiles (setInsert f.file_number s) rest

/-- The level-0 key-range update: comparator min/max over the included
files. -/
def updateRange0 (sk lk : Nat) : List SstFileMetaData → Nat × Nat
  | [] => (sk, lk)
  | f :: rest => updateRange0 (min sk f.smallestkey) (max lk f.largestkey) rest

/-- One lower level of the `for (int m = l + 1; m <= output_level; ++m)`
loop: include every file overlapping the aggregated range, aborting on a
being-compacted one. -/
def includeOverlapping (sk lk : Nat) (s : List Nat) :
    List SstFileMetaData → Except Status (List Nat)
  | [] => .ok s
  | f :: rest =>
      if HaveOverlappingKeyRanges ⟨0, sk, lk, false⟩ f then
        if f.being_compacted then .error .aborted
        else includeOverlapping sk lk (setInsert f.file_number s) rest
      else includeOverlapping sk lk s rest

/-- All lower levels of the `m`-loop, in order. -/
def includeLowerLevels (sk lk : Nat) :
    List (List SstFileMetaData) → List Nat → Except Status (List Nat)
  | [], s => .ok s
  | lvl :: rest, s =>
      match includeOverlapping sk lk s lvl with
      | .error e => .error e
      | .ok s' => includeLowerLevels sk lk rest s'

/-- The updated compaction key range of a level visit: comparator min/max
over the included window at level 0, else min/max with the window's first
and last file. -/
def sanitizeKr (lIsZero : Bool) (files : List SstFileMetaData) (a b : Nat)
    (sk0 lk0 : Nat) : Nat × Nat :=
  if lIsZero then updateRange0 sk0 lk0 (levelSlice files a b)
  else (min sk0 (files.getD a default).smallestkey,
        max lk0 (files.getD b default).largestkey)

/-- The inclusion part of a level visit: include the window `[a..b]` (abort
on a busy file), then include every overlapping file of each lower level
against the updated key range `kr`. -/
def sanitizeLevelCore (files : List SstFileMetaData)
    (lowerLevels : List (List SstFileMetaData)) (a b : Nat) (kr : Nat × Nat)
    (s : List Nat) : Except Status SanState :=
  match includeFiles s (levelSlice files a b) with
  | .error e => .error e
  | .ok s' =>
      match includeLowerLevels kr.1 kr.2 lowerLevels s' with
      | .error e => .error e
      | .ok s'' => .ok ⟨s'', kr.1, kr.2, true⟩

/-- One level `l` of `SanitizeCompactionInputFilesForAllLevels`: find the
first/last included files (seeding the key range from the first member found
when `is_first` is still false), extend the window for a clean cut when
`l != 0`, then run the inclusion part against the updated key range. -/
def sanitizeLevelStep (lIsZero : Bool) (files : List SstFileMetaData)
    (lowerLevels : List (List SstFileMetaData)) (st : SanState) :
    Except Status SanState :=
  match firstIncludedIdx st.input_files files,
      lastIncludedIdx st.input_files files with
  | some fi, some li =>
      let seedf := files.getD fi default
      let sk0 := if st.is_first then st.smallestkey else seedf.smallestkey
      let lk0 := if st.is_first then st.largestkey else seedf.largestkey
      let a := if lIsZero then fi
               else fi - extLeftSteps (files.getD fi default)
                 ((files.take fi).reverse)
      let b := if lIsZero then li
               else li + extRightSteps (files.getD li default)
                 (files.drop (li + 1))
      sanitizeLevelCore files lowerLevels a b
        (sanitizeKr lIsZero files a b sk0 lk0) st.input_files
  | _, _ => .ok st

/-- The `for (int l = 0; l <= output_level; ++l)` loop over a list of level
indices. -/
def sanitizeLevelsLoop (levels : List (List SstFileMetaData))
    (outputLevel : Nat) : List Nat → SanState → Except Status SanState
  | [], st => .ok st
  | l :: ls, st =>
      match sanitizeLevelStep (l == 0) (levels.getD l [])
          ((levels.drop (l + 1)).take (outputLevel - l)) st with
      | .error e => .error e
      | .ok st' => sanitizeLevelsLoop levels outputLevel ls st'

/-- `CompactionPicker::SanitizeCompactionInputFilesForAllLevels` for a
non-negative output level. -/
def SanitizeCompactionInputFilesForAllLevels
    (levels : List (List SstFileMetaData)) (outputLevel : Nat)
    (s : List Nat) : Except Status (List Nat) :=
  match sanitizeLevelsLoop levels outputLevel (List.range (outputLevel + 1))
      ⟨s, 0, 0, false⟩ with
  | .error e => .error e
  | .ok st => .ok st.input_files

/-- The metadata of the first file with the given number, scanning levels in
order then files in order (the trailing validation loop of
`SanitizeCompactionInputFiles`). -/
def findFileMeta (n : Nat) : List (List SstFileMetaData) → Option SstFileMetaData
  | [] => none
  | lvl :: rest =>
      match lvl.find? (fun f => f.file_number == n) with
      | some f => some f
      | none => findFileMeta n rest

/-- The trailing validation of `SanitizeCompactionInputFiles`: every number
of the (ascending) set must name an existing file; a being-compacted file
yields `Aborted`, an unknown number `InvalidArgument`. -/
def trailingCheck (levels : List (List SstFileMetaData)) :
    List Nat → Except Status Unit
  | [] => .ok ()
  | n :: rest =>
      match findFileMeta n levels with
      | some f =>
          if f.being_compacted then .error .aborted
          else trailingCheck levels rest
      | none => .error .invalidArgument

/-- `CompactionPicker::SanitizeCompactionInputFiles`: the output-level bound
checks (against the number of levels, `MaxOutputLevel()`, and the negative
sentinel `kDeletionCompaction`), the empty-set check, the per-level
expansion (skipped entirely when `output_level` is the negative sentinel,
since the `l <= output_level` loop does not run), then the trailing
validation.  `MaxOutputLevel()` is a strategy-dependent virtual defined
outside this translation unit, so it is a parameter here, as is the
sentinel's value. -/
def SanitizeCompactionInputFiles (maxOutputLevel kDeletionCompaction : Int)
    (s : List Nat) (levels : List (List SstFileMetaData))
    (outputLevel : Int) : Except Status (List Nat) :=
  if (levels.length : Int) ≤ outputLevel then .error .invalidArgument
  else if maxOutputLevel < outputLevel then .error .invalidArgument
  else if outputLevel < 0 ∧ outputLevel ≠ kDeletionCompaction then
    .error .invalidArgument
  else if s.length = 0 then .error .invalidArgument
  else
    match (if outputLevel < 0 then Except.ok s
           else SanitizeCompactionInputFilesForAllLevels levels
             outputLevel.toNat s) with
    | .error e => .error e
    | .ok s' =>
        match trailingCheck levels s' with
        | .error e => .error e
        | .ok _ => .ok s'

/-- `SanitizeCompactionInputFiles` is a `const` method: it never touches the
picker's own state (`compactions_in_progress_` and the `being_compacted`
flags).  The pairing makes that explicit. -/
def SanitizeCompactionInputFilesOnState (st : PickerState)
    (maxOutputLevel kDeletionCompaction : Int) (s : List Nat)
    (levels : List (List SstFileMetaData)) (outputLevel : Int) :
    PickerState × Except Status (List Nat) :=
  (st, SanitizeCompactionInputFiles maxOutputLevel kDeletionCompaction s
    levels outputLevel)

/-- The per-level matcher of `GetCompactionInputsFromFileNumbers`: collect
the level's files whose number is in the set, erasing each matched number
from the set as the source does. -/
def matchLevel : List Nat → List FileMetaData → List Nat × List FileMetaData
  | s, [] => (s, [])
  | s, f :: rest =>
      if f.file_number ∈ s then
        let r := matchLevel (s.erase f.file_number) rest
        (r.1, f :: r.2)
      else matchLevel s rest

/-- All levels of the matcher, threading the shrinking set. -/
def matchLevels : List Nat → List (List FileMetaData) →
    List Nat × List (List FileMetaData)
  | s, [] => (s, [])
  | s, lvl :: rest =>
      let r := matchLevel s lvl
      let r2 := matchLevels r.1 rest
      (r2.1, r.2 :: r2.2)

/-- Index of the last non-empty matched level. -/
def lastNonEmptyIdx : List (List FileMetaData) → Option Nat
  | [] => none
  | lvl :: rest =>
      match lastNonEmptyIdx rest with
      | some i => some (i + 1)
      | none => if lvl.isEmpty then none else some 0

/-- `CompactionPicker::GetCompactionInputsFromFileNumbers`: an empty input
set or a leftover (unmatched) file number is `InvalidArgument`; otherwise
the per-level input lists from the first through the last non-empty level
(empty levels in between included, as in the source). -/
def GetCompactionInputsFromFileNumbers (s : List Nat)
    (versionFiles : List (List FileMetaData)) :
    Except Status (List (Nat × List FileMetaData)) :=
  if s.length = 0 then .error .invalidArgument
  else
    let r := matchLevels s versionFiles
    if r.1.isEmpty = false then .error .invalidArgument
    else
      match r.2.findIdx? (fun lvl => !lvl.isEmpty), lastNonEmptyIdx r.2 with
      | some first, some last =>
          .ok ((List.range (last + 1 - first)).map
            (fun k => (first + k, r.2.getD (first + k) [])))
      | _, _ => .ok []

theorem setInsert_mem (m n : Nat) :
    ∀ s : List Nat, m ∈ setInsert n s ↔ m = n ∨ m ∈ s := by
  intro s
  induction s with
  | nil => simp [setInsert]
  | cons x rest ih =>
      unfold setInsert
      by_cases h1 : n < x
      · rw [if_pos h1]; simp
      · rw [if_neg h1]
        by_cases h2 : n = x
        · rw [if_pos h2]; subst h2; simp
        · rw [if_neg h2]; simp [ih]; tauto

theorem setInsert_head?_cases (n : Nat) (s : List Nat) (k : Nat)
    (h : (setInsert n s).head? = some k) : k = n ∨ s.head? = some k := by
  cases s with
  | nil => simp [setInsert] at h; exact Or.inl h.symm
  | cons x rest =>
      unfold setInsert at h
      by_cases h1 : n < x
      · rw [if_pos h1] at h; simp at h; exact Or.inl h.symm
      · rw [if_neg h1] at h
        by_cases h2 : n = x
        · rw [if_pos h2] at h; simp at h; exact Or.inr (by simp [h])
        · rw [if_neg h2] at h; simp at h; exact Or.inr (by simp [h])

theorem setInsert_sorted (n : Nat) :
    ∀ s : List Nat, List.Chain' (· < ·) s →
      List.Chain' (· < ·) (setInsert n s) := by
  intro s
  induction s with
  | nil => intro h; simp [setInsert]
  | cons x rest ih =>
      intro h
      have hx : ∀ b ∈ rest.head?, x < b := (List.chain'_cons'.mp h).1
      have hrest : List.Chain' (· < ·) rest := (List.chain'_cons'.mp h).2
      unfold setInsert
      by_cases h1 : n < x
      · rw [if_pos h1]
        exact List.chain'_cons.mpr ⟨h1, h⟩
      · rw [if_neg h1]
        by_cases h2 : n = x
        · rw [if_pos h2]; exact h
        · rw [if_neg h2]
          have hxn : x < n := by omega
          refine List.chain'_cons'.mpr ⟨?_, ih hrest⟩
          intro b hb
          rcases setInsert_head?_cases n rest b hb with rfl | hb'
          · exact hxn
          · exact hx b hb'

theorem setInsert_eq_of_mem (n : Nat) :
    ∀ s : List Nat, List.Chain' (· < ·) s → n ∈ s → setInsert n s = s := by
  intro s
  induction s with
  | nil => intro _ h; simp at h
  | cons x rest ih =>
      intro hs hn
      have hx : ∀ b ∈ rest.head?, x < b := (List.chain'_cons'.mp hs).1
      have hrest : List.Chain' (· < ·) rest := (List.chain'_cons'.mp hs).2
      unfold setInsert
      by_cases h2 : n = x
      · rw [if_neg (by omega), if_pos h2]
      · have hnr : n ∈ rest := by
          rcases List.mem_cons.mp hn with h | h
          · exact absurd h h2
          · exact h
        have hxn : x < n := by
          -- every element of a sorted list is above the head
          have : ∀ m ∈ rest, x < m := by
            intro m hm
            have hp : List.Chain' (· < ·) (x :: rest) := hs
            have := List.chain'_iff_pairwise.mp hp
            exact (List.pairwise_cons.mp this).1 m hm
          exact this n hnr
        rw [if_neg (by omega), if_neg h2, ih hrest hnr]

theorem includeFiles_error :
    ∀ (fl : List SstFileMetaData) (s : List Nat) (e : Status),
      includeFiles s fl = .error e → e = .aborted := by
  intro fl
  induction fl with
  | nil => intro s e h; simp [includeFiles] at h
  | cons f rest ih =>
      intro s e h
      unfold includeFiles at h
      by_cases hc : f.being_compacted
      · rw [if_pos hc] at h
        exact (Except.error.inj h).symm
      · rw [if_neg hc] at h
        exact ih _ _ h

theorem includeFiles_ok :
    ∀ (fl : List SstFileMetaData) (s s₁ : List Nat),
      includeFiles s fl = .ok s₁ →
      (∀ m, m ∈ s₁ ↔ m ∈ s ∨ ∃ f ∈ fl, f.file_number = m) ∧
      (∀ f ∈ fl, f.being_compacted = false) ∧
      (List.Chain' (· < ·) s → List.Chain' (· < ·) s₁) := by
  intro fl
  induction fl with
  | nil =>
      intro s s₁ h
      simp [includeFiles] at h
      subst h
      exact ⟨by simp, by simp, fun hs => hs⟩
  | cons f rest ih =>
      intro s s₁ h
      unfold includeFiles at h
      by_cases hc : f.being_compacted
      · rw [if_pos hc] at h; exact absurd h (by simp)
      · rw [if_neg hc] at h
        obtain ⟨hmem, hclean, hsort⟩ := ih (setInsert f.file_number s) s₁ h
        refine ⟨?_, ?_, ?_⟩
        · intro m
          rw [hmem m, setInsert_mem]
          constructor
          · rintro ((rfl | hm) | ⟨g, hg, rfl⟩)
            · exact Or.inr ⟨f, List.mem_cons_self f rest, rfl⟩
            · exact Or.inl hm
            · exact Or.inr ⟨g, List.mem_cons_of_mem f hg, rfl⟩
          · rintro (hm | ⟨g, hg, rfl⟩)
            · exact Or.inl (Or.inr hm)
            · rcases List.mem_cons.mp hg with rfl | hg'
              · exact Or.inl (Or.inl rfl)
              · exact Or.inr ⟨g, hg', rfl⟩
        · intro g hg
          rcases List.mem_cons.mp hg with rfl | hg'
          · simpa using hc
          · exact hclean g hg'
        · intro hs
          exact hsort (setInsert_sorted _ _ hs)

theorem includeFiles_noop :
    ∀ (fl : List SstFileMetaData) (s : List Nat),
      List.Chain' (· < ·) s →
      (∀ f ∈ fl, f.being_compacted = false ∧ f.file_number ∈ s) →
      includeFiles s fl = .ok s := by
  intro fl
  induction fl with
  | nil => intro s _ _; rfl
  | cons f rest ih =>
      intro s hs hall
      obtain ⟨hc, hm⟩ := hall f (List.mem_cons_self f rest)
      unfold includeFiles
      rw [if_neg (by simp [hc]), setInsert_eq_of_mem _ _ hs hm]
      exact ih s hs (fun g hg => hall g (List.mem_cons_of_mem f hg))

theorem includeFiles_ok_of_clean :
    ∀ (fl : List SstFileMetaData) (s : List Nat),
      (∀ f ∈ fl, f.being_compacted = false) →
      ∃ s₁, includeFiles s fl = .ok s₁ := by
  intro fl
  induction fl with
  | nil => intro s _; exact ⟨s, rfl⟩
  | cons f rest ih =>
      intro s hall
      unfold includeFiles
      rw [if_neg (by simp [hall f (List.mem_cons_self f rest)])]
      exact ih _ (fun g hg => hall g (List.mem_cons_of_mem f hg))

theorem includeOverlapping_error :
    ∀ (lvl : List SstFileMetaData) (sk lk : Nat) (s : List Nat) (e : Status),
      includeOverlapping sk lk s lvl = .error e → e = .aborted := by
  intro lvl
  induction lvl with
  | nil => intro sk lk s e h; simp [includeOverlapping] at h
  | cons f rest ih =>
      intro sk lk s e h
      unfold includeOverlapping at h
      by_cases ho : HaveOverlappingKeyRanges ⟨0, sk, lk, false⟩ f
      · rw [if_pos ho] at h
        by_cases hc : f.being_compacted
        · rw [if_pos hc] at h; exact (Except.error.inj h).symm
        · rw [if_neg hc] at h; exact ih _ _ _ _ h
      · rw [if_neg ho] at h; exact ih _ _ _ _ h

theorem includeOverlapping_ok :
    ∀ (lvl : List SstFileMetaData) (sk lk : Nat) (s s₁ : List Nat),
      includeOverlapping sk lk s lvl = .ok s₁ →
      (∀ m, m ∈ s₁ ↔ m ∈ s ∨ ∃ f ∈ lvl,
        HaveOverlappingKeyRanges ⟨0, sk, lk, false⟩ f = true ∧
          f.file_number = m) ∧
      (∀ f ∈ lvl, HaveOverlappingKeyRanges ⟨0, sk, lk, false⟩ f = true →
        f.being_compacted = false) ∧
      (List.Chain' (· < ·) s → List.Chain' (· < ·) s₁) := by
  intro lvl
  induction lvl with
  | nil =>
      intro sk lk s s₁ h
      simp [includeOverlapping] at h
      subst h
      exact ⟨by simp, by simp, fun hs => hs⟩
  | cons f rest ih =>
      intro sk lk s s₁ h
      unfold includeOverlapping at h
      by_cases ho : HaveOverlappingKeyRanges ⟨0, sk, lk, false⟩ f
      · rw [if_pos ho] at h
        by_cases hc : f.being_compacted
        · rw [if_pos hc] at h; exact absurd h (by simp)
        · rw [if_neg hc] at h
          obtain ⟨hmem, hclean, hsort⟩ := ih sk lk (setInsert f.file_number s) s₁ h
          refine ⟨?_, ?_, ?_⟩
          · intro m
            rw [hmem m, setInsert_mem]
            constructor
            · rintro ((rfl | hm) | ⟨g, hg, hov, rfl⟩)
              · exact Or.inr ⟨f, List.mem_cons_self f rest, ho, rfl⟩
              · exact Or.inl hm
              · exact Or.inr ⟨g, List.mem_cons_of_mem f hg, hov, rfl⟩
            · rintro (hm | ⟨g, hg, hov, rfl⟩)
              · exact Or.inl (Or.inr hm)
              · rcases List.mem_cons.mp hg with rfl | hg'
                · exact Or.inl (Or.inl rfl)
                · exact Or.inr ⟨g, hg', hov, rfl⟩
          · intro g hg hov
            rcases List.mem_cons.mp hg with rfl | hg'
            · simpa using hc
            · exact hclean g hg' hov
          · intro hs
            exact hsort (setInsert_sorted _ _ hs)
      · rw [if_neg ho] at h
        obtain ⟨hmem, hclean, hsort⟩ := ih sk lk s s₁ h
        refine ⟨?_, ?_, ?_⟩
        · intro m
          rw [hmem m]
          constructor
          · rintro (hm | ⟨g, hg, hov, rfl⟩)
            · exact Or.inl hm
            · exact Or.inr ⟨g, List.mem_cons_of_mem f hg, hov, rfl⟩
          · rintro (hm | ⟨g, hg, hov, rfl⟩)
            · exact Or.inl hm
            · rcases List.mem_cons.mp hg with rfl | hg'
              · exact absurd hov (by simpa using ho)
              · exact Or.inr ⟨g, hg', hov, rfl⟩
        · intro g hg hov
          rcases List.mem_cons.mp hg with rfl | hg'
          · exact absurd hov (by simpa using ho)
          · exact hclean g hg' hov
        · exact hsort

theorem includeOverlapping_noop :
    ∀ (lvl : List SstFileMetaData) (sk lk : Nat) (s : List Nat),
      List.Chain' (· < ·) s →
      (∀ f ∈ lvl, HaveOverlappingKeyRanges ⟨0, sk, lk, false⟩ f = true →
        f.being_compacted = false ∧ f.file_number ∈ s) →
      includeOverlapping sk lk s lvl = .ok s := by
  intro lvl
  induction lvl with
  | nil => intro sk lk s _ _; rfl
  | cons f rest ih =>
      intro sk lk s hs hall
      unfold includeOverlapping
      by_cases ho : HaveOverlappingKeyRanges ⟨0, sk, lk, false⟩ f
      · obtain ⟨hc, hm⟩ := hall f (List.mem_cons_self f rest) ho
        rw [if_pos ho, if_neg (by simp [hc]), setInsert_eq_of_mem _ _ hs hm]
        exact ih sk lk s hs (fun g hg => hall g (List.mem_cons_of_mem f hg))
      · rw [if_neg ho]
        exact ih sk lk s hs (fun g hg => hall g (List.mem_cons_of_mem f hg))

theorem includeOverlapping_ok_of_clean :
    ∀ (lvl : List SstFileMetaData) (sk lk : Nat) (s : List Nat),
      (∀ f ∈ lvl, f.being_compacted = false) →
      ∃ s₁, includeOverlapping sk lk s lvl = .ok s₁ := by
  intro lvl
  induction lvl with
  | nil => intro sk lk s _; exact ⟨s, rfl⟩
  | cons f rest ih =>
      intro sk lk s hall
      unfold includeOverlapping
      by_cases ho : HaveOverlappingKeyRanges ⟨0, sk, lk, false⟩ f
      · rw [if_pos ho, if_neg (by simp [hall f (List.mem_cons_self f rest)])]
        exact ih sk lk _ (fun g hg => hall g (List.mem_cons_of_mem f hg))
      · rw [if_neg ho]
        exact ih sk lk s (fun g hg => hall g (List.mem_cons_of_mem f hg))

theorem includeLowerLevels_error :
    ∀ (lvls : List (List SstFileMetaData)) (sk lk : Nat) (s : List Nat)
      (e : Status),
      includeLowerLevels sk lk lvls s = .error e → e = .aborted := by
  intro lvls
  induction lvls with
  | nil => intro sk lk s e h; simp [includeLowerLevels] at h
  | cons lvl rest ih =>
      intro sk lk s e h
      unfold includeLowerLevels at h
      cases hio : includeOverlapping sk lk s lvl with
      | error e' =>
          rw [hio] at h
          simp at h
          rw [← h]
          exact includeOverlapping_error lvl sk lk s e' hio
      | ok s' =>
          rw [hio] at h
          exact ih sk lk s' e h

theorem includeLowerLevels_ok :
    ∀ (lvls : List (List SstFileMetaData)) (sk lk : Nat) (s s₁ : List Nat),
      includeLowerLevels sk lk lvls s = .ok s₁ →
      (∀ m, m ∈ s₁ ↔ m ∈ s ∨ ∃ lvl ∈ lvls, ∃ f ∈ lvl,
        HaveOverlappingKeyRanges ⟨0, sk, lk, false⟩ f = true ∧
          f.file_number = m) ∧
      (∀ lvl ∈ lvls, ∀ f ∈ lvl,
        HaveOverlappingKeyRanges ⟨0, sk, lk, false⟩ f = true →
          f.being_compacted = false) ∧
      (List.Chain' (· < ·) s → List.Chain' (· < ·) s₁) := by
  intro lvls
  induction lvls with
  | nil =>
      intro sk lk s s₁ h
      simp [includeLowerLevels] at h
      subst h
      exact ⟨by simp, by simp, fun hs => hs⟩
  | cons lvl rest ih =>
      intro sk lk s s₁ h
      unfold includeLowerLevels at h
      cases hio : includeOverlapping sk lk s lvl with
      | error e' => rw [hio] at h; exact absurd h (by simp)
      | ok s' =>
          rw [hio] at h
          obtain ⟨hmem1, hclean1, hsort1⟩ := includeOverlapping_ok lvl sk lk s s' hio
          obtain ⟨hmem2, hclean2, hsort2⟩ := ih sk lk s' s₁ h
          refine ⟨?_, ?_, fun hs => hsort2 (hsort1 hs)⟩
          · intro m
            rw [hmem2 m, hmem1 m]
            constructor
            · rintro ((hm | ⟨g, hg, hov, rfl⟩) | ⟨l', hl', g, hg, hov, rfl⟩)
              · exact Or.inl hm
              · exact Or.inr ⟨lvl, List.mem_cons_self lvl rest, g, hg, hov, rfl⟩
              · exact Or.inr ⟨l', List.mem_cons_of_mem lvl hl', g, hg, hov, rfl⟩
            · rintro (hm | ⟨l', hl', g, hg, hov, rfl⟩)
              · exact Or.inl (Or.inl hm)
              · rcases List.mem_cons.mp hl' with rfl | hl''
                · exact Or.inl (Or.inr ⟨g, hg, hov, rfl⟩)
                · exact Or.inr ⟨l', hl'', g, hg, hov, rfl⟩
          · intro l' hl' g hg hov
            rcases List.mem_cons.mp hl' with rfl | hl''
            · exact hclean1 g hg hov
            · exact hclean2 l' hl'' g hg hov

theorem includeLowerLevels_noop :
    ∀ (lvls : List (List SstFileMetaData)) (sk lk : Nat) (s : List Nat),
      List.Chain' (· < ·) s →
      (∀ lvl ∈ lvls, ∀ f ∈ lvl,
        HaveOverlappingKeyRanges ⟨0, sk, lk, false⟩ f = true →
          f.being_compacted = false ∧ f.file_number ∈ s) →
      includeLowerLevels sk lk lvls s = .ok s := by
  intro lvls
  induction lvls with
  | nil => intro sk lk s _ _; rfl
  | cons lvl rest ih =>
      intro sk lk s hs hall
      unfold includeLowerLevels
      rw [includeOverlapping_noop lvl sk lk s hs
        (fun f hf => hall lvl (List.mem_cons_self lvl rest) f hf)]
      exact ih sk lk s hs (fun l' hl' => hall l' (List.mem_cons_of_mem lvl hl'))

theorem includeLowerLevels_ok_of_clean :
    ∀ (lvls : List (List SstFileMetaData)) (sk lk : Nat) (s : List Nat),
      (∀ lvl ∈ lvls, ∀ f ∈ lvl, f.being_compacted = false) →
      ∃ s₁, includeLowerLevels sk lk lvls s = .ok s₁ := by
  intro lvls
  induction lvls with
  | nil => intro sk lk s _; exact ⟨s, rfl⟩
  | cons lvl rest ih =>
      intro sk lk s hall
      obtain ⟨s', hs'⟩ := includeOverlapping_ok_of_clean lvl sk lk s
        (fun f hf => hall lvl (List.mem_cons_self lvl rest) f hf)
      obtain ⟨s₁, hs₁⟩ := ih sk lk s'
        (fun l' hl' => hall l' (List.mem_cons_of_mem lvl hl'))
      refine ⟨s₁, ?_⟩
      unfold includeLowerLevels
      rw [hs']
      exact hs₁

theorem sstGetD_mem :
    ∀ (l : List SstFileMetaData) (i : Nat), i < l.length →
      l.getD i default ∈ l := by
  intro l
  induction l with
  | nil => intro i h; simp at h
  | cons f rest ih =>
      intro i h
      cases i with
      | zero => exact List.mem_cons_self f rest
      | succ i' =>
          exact List.mem_cons_of_mem f (ih i' (by simpa using h))

theorem sstMem_getD :
    ∀ (l : List SstFileMetaData) (g : SstFileMetaData), g ∈ l →
      ∃ i, i < l.length ∧ l.getD i default = g := by
  intro l
  induction l with
  | nil => intro g h; simp at h
  | cons f rest ih =>
      intro g h
      rcases List.mem_cons.mp h with rfl | h'
      · exact ⟨0, by simp, rfl⟩
      · obtain ⟨i, hi, hg⟩ := ih g h'
        exact ⟨i + 1, by simpa using hi, hg⟩

theorem firstIncludedIdx_none :
    ∀ (files : List SstFileMetaData) (s : List Nat),
      firstIncludedIdx s files = none ↔ ∀ f ∈ files, f.file_number ∉ s := by
  intro files
  induction files with
  | nil => intro s; simp [firstIncludedIdx]
  | cons f rest ih =>
      intro s
      unfold firstIncludedIdx
      by_cases hf : f.file_number ∈ s
      · rw [if_pos hf]
        constructor
        · intro h; exact absurd h (by simp)
        · intro h; exact absurd hf (h f (List.mem_cons_self f rest))
      · rw [if_neg hf]
        constructor
        · intro h g hg
          rcases List.mem_cons.mp hg with rfl | hg'
          · exact hf
          · have hnone : firstIncludedIdx s rest = none := by
              cases hr : firstIncludedIdx s rest with
              | none => rfl
              | some i => rw [hr] at h; simp at h
            exact ((ih s).mp hnone) g hg'
        · intro h
          have hnone : firstIncludedIdx s rest = none :=
            (ih s).mpr (fun g hg => h g (List.mem_cons_of_mem f hg))
          rw [hnone]
          rfl

theorem lastIncludedIdx_none :
    ∀ (files : List SstFileMetaData) (s : List Nat),
      lastIncludedIdx s files = none ↔ ∀ f ∈ files, f.file_number ∉ s := by
  intro files
  induction files with
  | nil => intro s; simp [lastIncludedIdx]
  | cons f rest ih =>
      intro s
      unfold lastIncludedIdx
      cases hrest : lastIncludedIdx s rest with
      | some i =>
          simp only []
          constructor
          · intro h; exact absurd h (by simp)
          · intro h
            have : lastIncludedIdx s rest = none :=
              (ih s).mpr (fun g hg => h g (List.mem_cons_of_mem f hg))
            rw [hrest] at this
            exact absurd this (by simp)
      | none =>
          simp only []
          by_cases hf : f.file_number ∈ s
          · rw [if_pos hf]
            constructor
            · intro h; exact absurd h (by simp)
            · intro h; exact absurd hf (h f (List.mem_cons_self f rest))
          · rw [if_neg hf]
            constructor
            · intro _ g hg
              rcases List.mem_cons.mp hg with rfl | hg'
              · exact hf
              · exact ((ih s).mp hrest) g hg'
            · intro _; rfl

theorem firstIncludedIdx_some :
    ∀ (files : List SstFileMetaData) (s : List Nat) (i : Nat),
      firstIncludedIdx s files = some i →
      i < files.length ∧ (files.getD i default).file_number ∈ s ∧
        ∀ j, j < i → (files.getD j default).file_number ∉ s := by
  intro files
  induction files with
  | nil => intro s i h; simp [firstIncludedIdx] at h
  | cons f rest ih =>
      intro s i h
      unfold firstIncludedIdx at h
      by_cases hf : f.file_number ∈ s
      · rw [if_pos hf] at h
        simp at h
        subst h
        exact ⟨by simp, hf, by omega⟩
      · rw [if_neg hf] at h
        cases hr : firstIncludedIdx s rest with
        | none => rw [hr] at h; simp at h
        | some i' =>
            rw [hr] at h
            simp at h
            subst h
            obtain ⟨hlen, hmem, hlt⟩ := ih s i' hr
            refine ⟨by simpa using hlen, hmem, ?_⟩
            intro j hj
            cases j with
            | zero => exact hf
            | succ j' => exact hlt j' (by omega)

theorem firstIncludedIdx_eq :
    ∀ (files : List SstFileMetaData) (s : List Nat) (a : Nat),
      a < files.length → (files.getD a default).file_number ∈ s →
      (∀ j, j < a → (files.getD j default).file_number ∉ s) →
      firstIncludedIdx s files = some a := by
  intro files
  induction files with
  | nil => intro s a h; simp at h
  | cons f rest ih =>
      intro s a hlen hmem hlt
      unfold firstIncludedIdx
      cases a with
      | zero => rw [if_pos (by simpa using hmem)]
      | succ a' =>
          rw [if_neg (by simpa using hlt 0 (by omega))]
          rw [ih s a' (by simpa using hlen) (by simpa using hmem)
            (fun j hj => by simpa using hlt (j + 1) (by omega))]
          rfl

theorem lastIncludedIdx_some :
    ∀ (files : List SstFileMetaData) (s : List Nat) (i : Nat),
      lastIncludedIdx s files = some i →
      i < files.length ∧ (files.getD i default).file_number ∈ s ∧
        ∀ j, i < j → j < files.length → (files.getD j default).file_number ∉ s := by
  intro files
  induction files with
  | nil => intro s i h; simp [lastIncludedIdx] at h
  | cons f rest ih =>
      intro s i h
      unfold lastIncludedIdx at h
      cases hrest : lastIncludedIdx s rest with
      | some i' =>
          rw [hrest] at h
          simp at h
          subst h
          obtain ⟨hlen, hmem, hgt⟩ := ih s i' hrest
          refine ⟨by simpa using hlen, hmem, ?_⟩
          intro j hj hjlen
          cases j with
          | zero => omega
          | succ j' => exact hgt j' (by omega) (by simpa using hjlen)
      | none =>
          rw [hrest] at h
          by_cases hf : f.file_number ∈ s
          · rw [if_pos hf] at h
            simp at h
            subst h
            refine ⟨by simp, hf, ?_⟩
            intro j hj hjlen
            cases j with
            | zero => omega
            | succ j' =>
                have hall := (lastIncludedIdx_none rest s).mp hrest
                exact hall _ (sstGetD_mem rest j' (by simpa using hjlen))
          · rw [if_neg hf] at h
            exact absurd h (by simp)

theorem lastIncludedIdx_eq :
    ∀ (files : List SstFileMetaData) (s : List Nat) (b : Nat),
      b < files.length → (files.getD b default).file_number ∈ s →
      (∀ j, b < j → j < files.length → (files.getD j default).file_number ∉ s) →
      lastIncludedIdx s files = some b := by
  intro files
  induction files with
  | nil => intro s b h; simp at h
  | cons f rest ih =>
      intro s b hlen hmem hgt
      unfold lastIncludedIdx
      cases b with
      | zero =>
          have hnone : lastIncludedIdx s rest = none := by
            rw [lastIncludedIdx_none]
            intro g hg
            obtain ⟨j, hj, hje⟩ := sstMem_getD rest g hg
            rw [← hje]
            exact hgt (j + 1) (by omega) (by simpa using hj)
          rw [hnone]
          show (if f.file_number ∈ s then some 0 else none) = some 0
          rw [if_pos (by simpa using hmem)]
      | succ b' =>
          rw [ih s b' (by simpa using hlen) (by simpa using hmem)
            (fun j hj hjlen => by
              simpa using hgt (j + 1) (by omega) (by simpa using hjlen))]

theorem extLeftSteps_le :
    ∀ (ps : List SstFileMetaData) (cf : SstFileMetaData),
      extLeftSteps cf ps ≤ ps.length := by
  intro ps
  induction ps with
  | nil => intro cf; simp [extLeftSteps]
  | cons p rest ih =>
      intro cf
      unfold extLeftSteps
      by_cases h : cf.smallestkey ≤ p.largestkey
      · rw [if_pos h]
        have := ih p
        simp only [List.length_cons]
        omega
      · rw [if_neg h]; simp

theorem extLeftSteps_break :
    ∀ (ps : List SstFileMetaData) (cf : SstFileMetaData),
      extLeftSteps cf ps = ps.length ∨
      ((ps.getD (extLeftSteps cf ps) default).largestkey <
        ((cf :: ps).getD (extLeftSteps cf ps) default).smallestkey) := by
  intro ps
  induction ps with
  | nil => intro cf; exact Or.inl rfl
  | cons p rest ih =>
      intro cf
      unfold extLeftSteps
      by_cases h : cf.smallestkey ≤ p.largestkey
      · rw [if_pos h]
        rcases ih p with he | hb
        · exact Or.inl (by simp [he])
        · exact Or.inr (by simpa using hb)
      · rw [if_neg h]
        exact Or.inr (by simpa using h)

theorem extRightSteps_le :
    ∀ (qs : List SstFileMetaData) (cf : SstFileMetaData),
      extRightSteps cf qs ≤ qs.length := by
  intro qs
  induction qs with
  | nil => intro cf; simp [extRightSteps]
  | cons nf rest ih =>
      intro cf
      unfold extRightSteps
      by_cases h : nf.smallestkey ≤ cf.largestkey
      · rw [if_pos h]
        have := ih nf
        simp only [List.length_cons]
        omega
      · rw [if_neg h]; simp

theorem extRightSteps_break :
    ∀ (qs : List SstFileMetaData) (cf : SstFileMetaData),
      extRightSteps cf qs = qs.length ∨
      (((cf :: qs).getD (extRightSteps cf qs) default).largestkey <
        (qs.getD (extRightSteps cf qs) default).smallestkey) := by
  intro qs
  induction qs with
  | nil => intro cf; exact Or.inl rfl
  | cons nf rest ih =>
      intro cf
      unfold extRightSteps
      by_cases h : nf.smallestkey ≤ cf.largestkey
      · rw [if_pos h]
        rcases ih nf with he | hb
        · exact Or.inl (by simp [he])
        · exact Or.inr (by simpa using hb)
      · rw [if_neg h]
        exact Or.inr (by simpa using h)

theorem take_reverse_getD (files : List SstFileMetaData) (i j : Nat)
    (hi : i ≤ files.length) (hj : j < i) :
    ((files.take i).reverse).getD j default = files.getD (i - 1 - j) default := by
  have hlt : j < ((files.take i).reverse).length := by
    simp [List.length_take]
    omega
  have hlt2 : i - 1 - j < files.length := by omega
  rw [List.getD_eq_getElem _ default hlt, List.getD_eq_getElem _ default hlt2]
  rw [List.getElem_reverse]
  have hts : (files.take i).length - 1 - j = i - 1 - j := by
    simp [List.length_take]
    omega
  simp only [hts]
  exact List.getElem_take files

theorem drop_getD (files : List SstFileMetaData) (i j : Nat)
    (h : i + j < files.length) :
    (files.drop i).getD j default = files.getD (i + j) default := by
  have hlt : j < (files.drop i).length := by
    simp [List.length_drop]
    omega
  rw [List.getD_eq_getElem _ default hlt, List.getD_eq_getElem _ default h]
  exact List.getElem_drop files

theorem extLeft_a_spec (files : List SstFileMetaData) (fi a : Nat)
    (hfi : fi < files.length)
    (ha : a = fi - extLeftSteps (files.getD fi default)
      ((files.take fi).reverse)) :
    a ≤ fi ∧
    (a = 0 ∨ (files.getD (a - 1) default).largestkey <
      (files.getD a default).smallestkey) := by
  have hlen : ((files.take fi).reverse).length = fi := by
    simp [List.length_take]
    omega
  have hk := extLeftSteps_le ((files.take fi).reverse) (files.getD fi default)
  rw [hlen] at hk
  refine ⟨by omega, ?_⟩
  by_cases hz : a = 0
  · exact Or.inl hz
  · refine Or.inr ?_
    have hb := extLeftSteps_break ((files.take fi).reverse) (files.getD fi default)
    rw [hlen] at hb
    rcases hb with he | hb
    · omega
    · -- translate the indices: the break happened at step k = fi - a
      have hknum : extLeftSteps (files.getD fi default) ((files.take fi).reverse) =
          fi - a := by omega
      rw [hknum] at hb
      have h1 : ((files.take fi).reverse).getD (fi - a) default =
          files.getD (a - 1) default := by
        rw [take_reverse_getD files fi (fi - a) (by omega) (by omega)]
        congr 1
        omega
      rw [h1] at hb
      cases hcase : fi - a with
      | zero =>
          -- k = 0: the current file is files[fi] itself and a = fi
          have hafi : a = fi := by omega
          rw [hcase] at hb
          have h2 : ((files.getD fi default :: (files.take fi).reverse).getD 0
              default) = files.getD fi default := rfl
          rw [h2] at hb
          rw [← hafi] at hb
          exact hb
      | succ k'' =>
          rw [hcase] at hb
          have h2 : ((files.getD fi default :: (files.take fi).reverse).getD
              (k'' + 1) default) = ((files.take fi).reverse).getD k'' default := rfl
          rw [h2] at hb
          have h3 : ((files.take fi).reverse).getD k'' default =
              files.getD a default := by
            rw [take_reverse_getD files fi k'' (by omega) (by omega)]
            congr 1
            omega
          rw [h3] at hb
          exact hb

theorem extLeft_zero (files : List SstFileMetaData) (a : Nat)
    (ha : a ≤ files.length)
    (hbreak : a = 0 ∨ (files.getD (a - 1) default).largestkey <
      (files.getD a default).smallestkey) :
    extLeftSteps (files.getD a default) ((files.take a).reverse) = 0 := by
  rcases hbreak with rfl | hb
  · simp [extLeftSteps]
  · by_cases hz : a = 0
    · subst hz; simp [extLeftSteps]
    · have hlen : ((files.take a).reverse).length = a := by
        simp [List.length_take]
        omega
      cases hps : (files.take a).reverse with
      | nil => rw [hps] at hlen; simp at hlen; omega
      | cons p t =>
          have hp : p = files.getD (a - 1) default := by
            have := take_reverse_getD files a 0 ha (by omega)
            rw [hps] at this
            simpa using this
          unfold extLeftSteps
          rw [if_neg (by rw [hp]; omega)]

theorem extRight_b_spec (files : List SstFileMetaData) (li b : Nat)
    (hli : li < files.length)
    (hb : b = li + extRightSteps (files.getD li default)
      (files.drop (li + 1))) :
    li ≤ b ∧ b < files.length ∧
    (b = files.length - 1 ∨ (files.getD b default).largestkey <
      (files.getD (b + 1) default).smallestkey) := by
  have hlen : (files.drop (li + 1)).length = files.length - li - 1 := by
    rw [List.length_drop]
    omega
  have hk := extRightSteps_le (files.drop (li + 1)) (files.getD li default)
  rw [hlen] at hk
  refine ⟨by omega, by omega, ?_⟩
  by_cases hlast : b = files.length - 1
  · exact Or.inl hlast
  · refine Or.inr ?_
    have hbk := extRightSteps_break (files.drop (li + 1)) (files.getD li default)
    rw [hlen] at hbk
    rcases hbk with he | hbk
    · omega
    · have hknum : extRightSteps (files.getD li default) (files.drop (li + 1)) =
          b - li := by omega
      rw [hknum] at hbk
      have h1 : (files.drop (li + 1)).getD (b - li) default =
          files.getD (b + 1) default := by
        rw [drop_getD files (li + 1) (b - li) (by omega)]
        congr 1
        omega
      rw [h1] at hbk
      cases hcase : b - li with
      | zero =>
          have hbli : b = li := by omega
          rw [hcase] at hbk
          have h2 : ((files.getD li default :: files.drop (li + 1)).getD 0
              default) = files.getD li default := rfl
          rw [h2] at hbk
          rw [← hbli] at hbk
          exact hbk
      | succ k'' =>
          rw [hcase] at hbk
          have h2 : ((files.getD li default :: files.drop (li + 1)).getD
              (k'' + 1) default) = (files.drop (li + 1)).getD k'' default := rfl
          rw [h2] at hbk
          have h3 : (files.drop (li + 1)).getD k'' default =
              files.getD b default := by
            rw [drop_getD files (li + 1) k'' (by omega)]
            congr 1
            omega
          rw [h3] at hbk
          exact hbk

theorem extRight_zero (files : List SstFileMetaData) (b : Nat)
    (hb : b < files.length)
    (hbreak : b = files.length - 1 ∨ (files.getD b default).largestkey <
      (files.getD (b + 1) default).smallestkey) :
    extRightSteps (files.getD b default) (files.drop (b + 1)) = 0 := by
  rcases hbreak with hlast | hbk
  · have : files.drop (b + 1) = [] := by
      apply List.drop_eq_nil_of_le
      omega
    rw [this]
    simp [extRightSteps]
  · cases hqs : files.drop (b + 1) with
    | nil => simp [extRightSteps]
    | cons nf t =>
        have hne : files.drop (b + 1) ≠ [] := by rw [hqs]; simp
        have hlt : b + 1 < files.length := by
          by_contra hcon
          exact hne (List.drop_eq_nil_of_le (by omega))
        have hnf : nf = files.getD (b + 1) default := by
          have := drop_getD files (b + 1) 0 (by omega)
          rw [hqs] at this
          simpa using this
        unfold extRightSteps
        rw [if_neg (by rw [hnf]; omega)]


theorem mem_of_mem_levelSlice (files : List SstFileMetaData) (a b : Nat)
    (f : SstFileMetaData) (h : f ∈ levelSlice files a b) : f ∈ files := by
  unfold levelSlice at h
  exact List.mem_of_mem_drop (List.mem_of_mem_take h)

theorem sanitizeLevelCore_error (files : List SstFileMetaData)
    (lower : List (List SstFileMetaData)) (a b : Nat) (kr : Nat × Nat)
    (s : List Nat) (e : Status)
    (h : sanitizeLevelCore files lower a b kr s = .error e) : e = .aborted := by
  unfold sanitizeLevelCore at h
  cases hIF : includeFiles s (levelSlice files a b) with
  | error e' =>
      simp only [hIF] at h
      obtain rfl : e' = e := Except.error.inj h
      exact includeFiles_error _ _ _ hIF
  | ok s' =>
      simp only [hIF] at h
      cases hILL : includeLowerLevels kr.1 kr.2 lower s' with
      | error e' =>
          simp only [hILL] at h
          obtain rfl : e' = e := Except.error.inj h
          exact includeLowerLevels_error _ _ _ _ _ hILL
      | ok s'' =>
          simp only [hILL] at h
          exact absurd h (by simp)

theorem sanitizeLevelCore_ok (files : List SstFileMetaData)
    (lower : List (List SstFileMetaData)) (a b : Nat) (kr : Nat × Nat)
    (s : List Nat) (st' : SanState)
    (h : sanitizeLevelCore files lower a b kr s = .ok st') :
    (∀ m, m ∈ st'.input_files ↔ m ∈ s ∨
      (∃ f ∈ levelSlice files a b, f.file_number = m) ∨
      ∃ lvl ∈ lower, ∃ f ∈ lvl,
        HaveOverlappingKeyRanges ⟨0, kr.1, kr.2, false⟩ f = true ∧
          f.file_number = m) ∧
    (∀ f ∈ levelSlice files a b, f.being_compacted = false) ∧
    (∀ lvl ∈ lower, ∀ f ∈ lvl,
      HaveOverlappingKeyRanges ⟨0, kr.1, kr.2, false⟩ f = true →
        f.being_compacted = false) ∧
    (List.Chain' (· < ·) s → List.Chain' (· < ·) st'.input_files) ∧
    st'.smallestkey = kr.1 ∧ st'.largestkey = kr.2 ∧ st'.is_first = true := by
  unfold sanitizeLevelCore at h
  cases hIF : includeFiles s (levelSlice files a b) with
  | error e' =>
      simp only [hIF] at h
      exact absurd h (by simp)
  | ok s' =>
      simp only [hIF] at h
      cases hILL : includeLowerLevels kr.1 kr.2 lower s' with
      | error e' =>
          simp only [hILL] at h
          exact absurd h (by simp)
      | ok s'' =>
          simp only [hILL] at h
          obtain ⟨hmem1, hclean1, hsort1⟩ := includeFiles_ok _ _ _ hIF
          obtain ⟨hmem2, hclean2, hsort2⟩ := includeLowerLevels_ok _ _ _ _ _ hILL
          have hst : st' = ⟨s'', kr.1, kr.2, true⟩ := by
            exact (Except.ok.inj h).symm
          subst hst
          refine ⟨?_, hclean1, hclean2, fun hs => hsort2 (hsort1 hs), rfl, rfl, rfl⟩
          intro m
          show m ∈ s'' ↔ _
          rw [hmem2 m, hmem1 m, or_assoc]

theorem sanitizeLevelCore_noop (files : List SstFileMetaData)
    (lower : List (List SstFileMetaData)) (a b : Nat) (kr : Nat × Nat)
    (sStar : List Nat) (hs : List.Chain' (· < ·) sStar)
    (hwin : ∀ f ∈ levelSlice files a b,
      f.being_compacted = false ∧ f.file_number ∈ sStar)
    (hlow : ∀ lvl ∈ lower, ∀ f ∈ lvl,
      HaveOverlappingKeyRanges ⟨0, kr.1, kr.2, false⟩ f = true →
        f.being_compacted = false ∧ f.file_number ∈ sStar) :
    sanitizeLevelCore files lower a b kr sStar = .ok ⟨sStar, kr.1, kr.2, true⟩ := by
  unfold sanitizeLevelCore
  rw [includeFiles_noop _ _ hs hwin]
  simp only []
  rw [includeLowerLevels_noop _ _ _ _ hs hlow]

theorem sanitizeLevelCore_ok_of_clean (files : List SstFileMetaData)
    (lower : List (List SstFileMetaData)) (a b : Nat) (kr : Nat × Nat)
    (s : List Nat)
    (hf : ∀ f ∈ files, f.being_compacted = false)
    (hl : ∀ lvl ∈ lower, ∀ f ∈ lvl, f.being_compacted = false) :
    ∃ st', sanitizeLevelCore files lower a b kr s = .ok st' := by
  unfold sanitizeLevelCore
  obtain ⟨s', hIF⟩ := includeFiles_ok_of_clean (levelSlice files a b) s
    (fun f hfm => hf f (mem_of_mem_levelSlice _ _ _ f hfm))
  rw [hIF]
  simp only []
  obtain ⟨s'', hILL⟩ := includeLowerLevels_ok_of_clean lower kr.1 kr.2 s' hl
  rw [hILL]
  exact ⟨_, rfl⟩

theorem sanitizeLevelStep_skip (z : Bool) (files : List SstFileMetaData)
    (lower : List (List SstFileMetaData)) (st : SanState)
    (hfi : firstIncludedIdx st.input_files files = none) :
    sanitizeLevelStep z files lower st = .ok st := by
  have hlast : lastIncludedIdx st.input_files files = none := by
    rw [lastIncludedIdx_none]
    exact (firstIncludedIdx_none files st.input_files).mp hfi
  unfold sanitizeLevelStep
  rw [hfi, hlast]

theorem sanitizeLevelStep_error (z : Bool) (files : List SstFileMetaData)
    (lower : List (List SstFileMetaData)) (st : SanState) (e : Status)
    (h : sanitizeLevelStep z files lower st = .error e) : e = .aborted := by
  unfold sanitizeLevelStep at h
  cases hfi : firstIncludedIdx st.input_files files with
  | none =>
      simp only [hfi] at h
      exact absurd h (by simp)
  | some fi =>
      cases hli : lastIncludedIdx st.input_files files with
      | none =>
          simp only [hfi, hli] at h
          exact absurd h (by simp)
      | some li =>
          simp only [hfi, hli] at h
          exact sanitizeLevelCore_error _ _ _ _ _ _ _ h

theorem sanitizeLevelStep_ok (z : Bool) (files : List SstFileMetaData)
    (lower : List (List SstFileMetaData)) (st st' : SanState)
    (h : sanitizeLevelStep z files lower st = .ok st') :
    (∀ m ∈ st.input_files, m ∈ st'.input_files) ∧
    (∀ m ∈ st'.input_files, m ∈ st.input_files ∨
      (∃ f ∈ files, f.file_number = m) ∨
      ∃ lvl ∈ lower, ∃ f ∈ lvl, f.file_number = m) ∧
    (List.Chain' (· < ·) st.input_files →
      List.Chain' (· < ·) st'.input_files) := by
  unfold sanitizeLevelStep at h
  cases hfi : firstIncludedIdx st.input_files files with
  | none =>
      simp only [hfi] at h
      have hst : st' = st := (Except.ok.inj h).symm
      subst hst
      exact ⟨fun m hm => hm, fun m hm => Or.inl hm, fun hs => hs⟩
  | some fi =>
      cases hli : lastIncludedIdx st.input_files files with
      | none =>
          simp only [hfi, hli] at h
          have hst : st' = st := (Except.ok.inj h).symm
          subst hst
          exact ⟨fun m hm => hm, fun m hm => Or.inl hm, fun hs => hs⟩
      | some li =>
          simp only [hfi, hli] at h
          obtain ⟨hmem, hclean1, hclean2, hsort, -, -, -⟩ :=
            sanitizeLevelCore_ok _ _ _ _ _ _ _ h
          refine ⟨?_, ?_, hsort⟩
          · intro m hm
            exact (hmem m).mpr (Or.inl hm)
          · intro m hm
            rcases (hmem m).mp hm with hm' | ⟨f, hf, rfl⟩ |
                ⟨lvl, hlvl, f, hf, _, rfl⟩
            · exact Or.inl hm'
            · exact Or.inr (Or.inl ⟨f, mem_of_mem_levelSlice _ _ _ f hf, rfl⟩)
            · exact Or.inr (Or.inr ⟨lvl, hlvl, f, hf, rfl⟩)

theorem sanitizeLevelStep_ok_of_clean (z : Bool)
    (files : List SstFileMetaData) (lower : List (List SstFileMetaData))
    (st : SanState)
    (hf : ∀ f ∈ files, f.being_compacted = false)
    (hl : ∀ lvl ∈ lower, ∀ f ∈ lvl, f.being_compacted = false) :
    ∃ st', sanitizeLevelStep z files lower st = .ok st' := by
  unfold sanitizeLevelStep
  cases hfi : firstIncludedIdx st.input_files files with
  | none => exact ⟨st, rfl⟩
  | some fi =>
      cases hli : lastIncludedIdx st.input_files files with
      | none => exact ⟨st, rfl⟩
      | some li =>
          simp only []
          exact sanitizeLevelCore_ok_of_clean files lower _ _ _
            st.input_files hf hl

theorem getD_level_mem (levels : List (List SstFileMetaData)) (l : Nat)
    (f : SstFileMetaData) (h : f ∈ levels.getD l []) :
    l < levels.length ∧ levels.getD l [] ∈ levels := by
  by_cases hl : l < levels.length
  · constructor
    · exact hl
    · rw [List.getD_eq_getElem _ _ hl]
      exact List.getElem_mem hl
  · rw [List.getD_eq_default _ _ (by omega)] at h
    simp at h

theorem lower_slice_mem (levels : List (List SstFileMetaData)) (l k : Nat)
    (lvl : List SstFileMetaData) (h : lvl ∈ (levels.drop (l + 1)).take k) :
    ∃ j, l + 1 ≤ j ∧ j < levels.length ∧ lvl = levels.getD j [] := by
  obtain ⟨i, hi, hget⟩ := List.mem_iff_getElem.mp (List.mem_of_mem_take h)
  have hlen : i < levels.length - (l + 1) := by
    have := List.length_drop (l + 1) levels
    omega
  refine ⟨l + 1 + i, by omega, by omega, ?_⟩
  rw [List.getD_eq_getElem _ _ (by omega : l + 1 + i < levels.length)]
  rw [← hget]
  exact (List.getElem_drop levels).symm ▸ rfl

theorem lower_slice_mem_levels (levels : List (List SstFileMetaData))
    (l k : Nat) (lvl : List SstFileMetaData)
    (h : lvl ∈ (levels.drop (l + 1)).take k) : lvl ∈ levels :=
  List.mem_of_mem_drop (List.mem_of_mem_take h)

theorem sanitizeLevelsLoop_error :
    ∀ (ls : List Nat) (levels : List (List SstFileMetaData)) (out : Nat)
      (st : SanState) (e : Status),
      sanitizeLevelsLoop levels out ls st = .error e → e = .aborted := by
  intro ls
  induction ls with
  | nil => intro levels out st e h; simp [sanitizeLevelsLoop] at h
  | cons l rest ih =>
      intro levels out st e h
      unfold sanitizeLevelsLoop at h
      cases hstep : sanitizeLevelStep (l == 0) (levels.getD l [])
          ((levels.drop (l + 1)).take (out - l)) st with
      | error e' =>
          simp only [hstep] at h
          obtain rfl : e' = e := Except.error.inj h
          exact sanitizeLevelStep_error _ _ _ _ _ hstep
      | ok st' =>
          simp only [hstep] at h
          exact ih levels out st' e h

theorem sanitizeLevelsLoop_ok :
    ∀ (ls : List Nat) (levels : List (List SstFileMetaData)) (out : Nat)
      (st st_fin : SanState),
      sanitizeLevelsLoop levels out ls st = .ok st_fin →
      (∀ m ∈ st.input_files, m ∈ st_fin.input_files) ∧
      (∀ m ∈ st_fin.input_files, m ∈ st.input_files ∨
        ∃ j, (∃ l ∈ ls, l ≤ j) ∧ j < levels.length ∧
          ∃ f ∈ levels.getD j [], f.file_number = m) ∧
      (List.Chain' (· < ·) st.input_files →
        List.Chain' (· < ·) st_fin.input_files) := by
  intro ls
  induction ls with
  | nil =>
      intro levels out st st_fin h
      simp [sanitizeLevelsLoop] at h
      subst h
      exact ⟨fun m hm => hm, fun m hm => Or.inl hm, fun hs => hs⟩
  | cons l rest ih =>
      intro levels out st st_fin h
      unfold sanitizeLevelsLoop at h
      cases hstep : sanitizeLevelStep (l == 0) (levels.getD l [])
          ((levels.drop (l + 1)).take (out - l)) st with
      | error e' => simp only [hstep] at h; exact absurd h (by simp)
      | ok st' =>
          simp only [hstep] at h
          obtain ⟨hmono1, hnew1, hsort1⟩ := sanitizeLevelStep_ok _ _ _ _ _ hstep
          obtain ⟨hmono2, hnew2, hsort2⟩ := ih levels out st' st_fin h
          refine ⟨fun m hm => hmono2 m (hmono1 m hm), ?_,
            fun hs => hsort2 (hsort1 hs)⟩
          intro m hm
          rcases hnew2 m hm with hm' | ⟨j, ⟨l', hl', hlj⟩, hjlen, f, hf, rfl⟩
          · rcases hnew1 m hm' with hm'' | ⟨f, hf, rfl⟩ | ⟨lvl, hlvl, f, hf, rfl⟩
            · exact Or.inl hm''
            · obtain ⟨hl, -⟩ := getD_level_mem levels l f hf
              exact Or.inr ⟨l, ⟨l, List.mem_cons_self l rest, le_refl l⟩, hl,
                f, hf, rfl⟩
            · obtain ⟨j, hj1, hj2, rfl⟩ := lower_slice_mem levels l _ lvl hlvl
              exact Or.inr ⟨j, ⟨l, List.mem_cons_self l rest, by omega⟩, hj2,
                f, hf, rfl⟩
          · exact Or.inr ⟨j, ⟨l', List.mem_cons_of_mem l hl', hlj⟩, hjlen,
              f, hf, rfl⟩

theorem sanitizeLevelsLoop_ok_of_clean
    (levels : List (List SstFileMetaData)) (out : Nat)
    (hclean : ∀ lvl ∈ levels, ∀ f ∈ lvl, f.being_compacted = false) :
    ∀ (ls : List Nat) (st : SanState),
      ∃ st', sanitizeLevelsLoop levels out ls st = .ok st' := by
  intro ls
  induction ls with
  | nil => intro st; exact ⟨st, rfl⟩
  | cons l rest ih =>
      intro st
      obtain ⟨st', hstep⟩ := sanitizeLevelStep_ok_of_clean (l == 0)
        (levels.getD l []) ((levels.drop (l + 1)).take (out - l)) st
        (fun f hf => hclean _ (getD_level_mem levels l f hf).2 f hf)
        (fun lvl hlvl f hf =>
          hclean lvl (lower_slice_mem_levels levels l _ lvl hlvl) f hf)
      obtain ⟨st'', hloop⟩ := ih st'
      refine ⟨st'', ?_⟩
      unfold sanitizeLevelsLoop
      rw [hstep]
      exact hloop

theorem levelSlice_getD_mem (files : List SstFileMetaData) (a b i : Nat)
    (hai : a ≤ i) (hib : i ≤ b) (hlen : i < files.length) :
    files.getD i default ∈ levelSlice files a b := by
  unfold levelSlice
  have hk : i - a < ((files.drop a).take (b + 1 - a)).length := by
    simp [List.length_take, List.length_drop]
    omega
  rw [List.mem_iff_getElem]
  refine ⟨i - a, hk, ?_⟩
  rw [List.getElem_take, List.getElem_drop]
  rw [List.getD_eq_getElem _ _ hlen]
  congr 1
  omega

theorem levelSlice_mem_idx (files : List SstFileMetaData) (a b : Nat)
    (f : SstFileMetaData) (h : f ∈ levelSlice files a b) :
    ∃ i, a ≤ i ∧ i ≤ b ∧ i < files.length ∧ files.getD i default = f := by
  unfold levelSlice at h
  obtain ⟨k, hk, hget⟩ := List.mem_iff_getElem.mp h
  have hk1 : k < b + 1 - a := by
    have := List.length_take (b + 1 - a) (files.drop a)
    omega
  have hk2 : a + k < files.length := by
    have h1 := List.length_take (b + 1 - a) (files.drop a)
    have h2 := List.length_drop a files
    simp [h1, h2] at hk
    omega
  refine ⟨a + k, by omega, by omega, hk2, ?_⟩
  rw [List.getD_eq_getElem _ _ hk2]
  rw [List.getElem_take, List.getElem_drop] at hget
  exact hget

theorem nums_index_inj (files : List SstFileMetaData)
    (hnodup : (files.map (fun f => f.file_number)).Nodup)
    (i j : Nat) (hi : i < files.length) (hj : j < files.length)
    (heq : (files.getD i default).file_number =
      (files.getD j default).file_number) : i = j := by
  have hi' : i < (files.map (fun f => f.file_number)).length := by simpa using hi
  have hj' : j < (files.map (fun f => f.file_number)).length := by simpa using hj
  have h1 : (files.map (fun f => f.file_number))[i] =
      (files.getD i default).file_number := by
    rw [List.getElem_map, List.getD_eq_getElem _ _ hi]
  have h2 : (files.map (fun f => f.file_number))[j] =
      (files.getD j default).file_number := by
    rw [List.getElem_map, List.getD_eq_getElem _ _ hj]
  have := (@List.Nodup.getElem_inj_iff _ (files.map (fun f => f.file_number))
    hnodup i hi' j hj').mp
  apply this
  rw [h1, h2, heq]

theorem levels_nodup_facts (levels : List (List SstFileMetaData))
    (hnodup : ((levels.map (fun lvl =>
      lvl.map (fun f => f.file_number))).flatten).Nodup) :
    (∀ j, j < levels.length →
      ((levels.getD j []).map (fun f => f.file_number)).Nodup) ∧
    (∀ j j', j < levels.length → j' < levels.length → j ≠ j' →
      ∀ f ∈ levels.getD j [], ∀ g ∈ levels.getD j' [],
        f.file_number ≠ g.file_number) := by
  rw [List.nodup_flatten] at hnodup
  obtain ⟨hper, hdisj⟩ := hnodup
  have hpair := List.pairwise_map.mp hdisj
  have hcross : ∀ j j', j < j' → j' < levels.length →
      ∀ f ∈ levels.getD j [], ∀ g ∈ levels.getD j' [],
        f.file_number ≠ g.file_number := by
    intro j j' hjj' hj' f hf g hg heq
    have hdj := List.pairwise_iff_getElem.mp hpair j j' (by omega) hj' hjj'
    have hf' : f.file_number ∈ (levels.getD j []).map (fun x => x.file_number) :=
      List.mem_map_of_mem _ hf
    have hg' : g.file_number ∈ (levels.getD j' []).map (fun x => x.file_number) :=
      List.mem_map_of_mem _ hg
    rw [List.getD_eq_getElem _ _ (by omega : j < levels.length)] at hf'
    rw [List.getD_eq_getElem _ _ hj'] at hg'
    exact hdj hf' (heq ▸ hg')
  constructor
  · intro j hj
    apply hper
    apply List.mem_map_of_mem
    rw [List.getD_eq_getElem _ _ hj]
    exact List.getElem_mem hj
  · intro j j' hj hj' hne f hf g hg heq
    rcases Nat.lt_or_ge j j' with hlt | hge
    · exact hcross j j' hlt hj' f hf g hg heq
    · have hlt : j' < j := by omega
      exact hcross j' j hlt hj g hg f hf heq.symm

theorem wf_mono (lvl : List SstFileMetaData)
    (hwf : List.Pairwise (fun x y => x.smallestkey ≤ y.smallestkey ∧
      x.largestkey ≤ y.largestkey) lvl)
    (i j : Nat) (hij : i ≤ j) (hj : j < lvl.length) :
    (lvl.getD i default).smallestkey ≤ (lvl.getD j default).smallestkey ∧
      (lvl.getD i default).largestkey ≤ (lvl.getD j default).largestkey := by
  rcases Nat.eq_or_lt_of_le hij with rfl | hlt
  · exact ⟨le_refl _, le_refl _⟩
  · have h := List.pairwise_iff_getElem.mp hwf i j (by omega) hj hlt
    rw [List.getD_eq_getElem _ _ (by omega : i < lvl.length),
      List.getD_eq_getElem _ _ hj]
    exact h

/-- Re-running one level visit on the final (already expanded) set produces
the same key range and leaves the set unchanged: the members of the final
set at this level form exactly the included window `[a..b]` of the first
pass, the clean-cut extension stops immediately at the first pass's window,
and every inclusion is already present. -/
theorem sanitize_sim_step (z : Bool) (files : List SstFileMetaData)
    (lower : List (List SstFileMetaData)) (st st₁ : SanState)
    (sStar : List Nat)
    (hstep : sanitizeLevelStep z files lower st = .ok st₁)
    (hsStar : List.Chain' (· < ·) sStar)
    (hsub : ∀ m ∈ st₁.input_files, m ∈ sStar)
    (hfrozen : ∀ i, i < files.length →
      ((files.getD i default).file_number ∈ sStar ↔
        (files.getD i default).file_number ∈ st₁.input_files))
    (hnodupL : (files.map (fun f => f.file_number)).Nodup)
    (hdisj : ∀ f ∈ files, ∀ lvl ∈ lower, ∀ g ∈ lvl,
      f.file_number ≠ g.file_number)
    (hwf : z = false → List.Pairwise (fun x y =>
      x.smallestkey ≤ y.smallestkey ∧ x.largestkey ≤ y.largestkey) files) :
    sanitizeLevelStep z files lower
        ⟨sStar, st.smallestkey, st.largestkey, st.is_first⟩ =
      .ok ⟨sStar, st₁.smallestkey, st₁.largestkey, st₁.is_first⟩ := by
  cases hfi : firstIncludedIdx st.input_files files with
  | none =>
      have hskip := sanitizeLevelStep_skip z files lower st hfi
      rw [hskip] at hstep
      obtain rfl : st = st₁ := Except.ok.inj hstep
      have hnone : firstIncludedIdx sStar files = none := by
        rw [firstIncludedIdx_none]
        intro f hf hmem
        obtain ⟨i, hi, hie⟩ := sstMem_getD files f hf
        rw [← hie] at hmem
        have := (hfrozen i hi).mp hmem
        rw [hie] at this
        exact (firstIncludedIdx_none files st.input_files).mp hfi f hf this
      exact sanitizeLevelStep_skip z files lower _ hnone
  | some fi =>
      cases hli : lastIncludedIdx st.input_files files with
      | none =>
          obtain ⟨hfl, hfmem, -⟩ := firstIncludedIdx_some files _ fi hfi
          exact absurd hfmem ((lastIncludedIdx_none files _).mp hli _
            (sstGetD_mem files fi hfl))
      | some li =>
          obtain ⟨hfl, hfmem, hflt⟩ := firstIncludedIdx_some files _ fi hfi
          obtain ⟨hll, hlmem, hlgt⟩ := lastIncludedIdx_some files _ li hli
          have hfile_le : fi ≤ li := by
            by_contra hcon
            exact hlgt fi (by omega) hfl hfmem
          simp only [sanitizeLevelStep, hfi, hli] at hstep
          set A := if z = true then fi
            else fi - extLeftSteps (files.getD fi default)
              ((files.take fi).reverse) with hAdef
          set B := if z = true then li
            else li + extRightSteps (files.getD li default)
              (files.drop (li + 1)) with hBdef
          have hAfi : A ≤ fi := by
            rw [hAdef]
            by_cases hz : z = true
            · rw [if_pos hz]
            · rw [if_neg hz]
              omega
          have hBli : li ≤ B := by
            rw [hBdef]
            by_cases hz : z = true
            · rw [if_pos hz]
            · rw [if_neg hz]
              omega
          have hBlen : B < files.length := by
            by_cases hz : z = true
            · rw [hBdef, if_pos hz]; exact hll
            · exact (extRight_b_spec files li B hll
                (by rw [hBdef, if_neg hz])).2.1
          have hAB : A ≤ B := by omega
          have hA' : (if z = true then A
              else A - extLeftSteps (files.getD A default)
                ((files.take A).reverse)) = A := by
            by_cases hz : z = true
            · rw [if_pos hz]
            · rw [if_neg hz]
              have hspec := (extLeft_a_spec files fi A hfl
                (by rw [hAdef, if_neg hz])).2
              rw [extLeft_zero files A (by omega) hspec]
              omega
          have hB' : (if z = true then B
              else B + extRightSteps (files.getD B default)
                (files.drop (B + 1))) = B := by
            by_cases hz : z = true
            · rw [if_pos hz]
            · rw [if_neg hz]
              have hspec := (extRight_b_spec files li B hll
                (by rw [hBdef, if_neg hz])).2.2
              rw [extRight_zero files B hBlen hspec]
              omega
          obtain ⟨hmem, hclean1, hclean2, hsort, hsk, hlk, hisf⟩ :=
            sanitizeLevelCore_ok _ _ _ _ _ _ _ hstep
          -- interval characterization of the final set at this level
          have hint : ∀ i, i < files.length →
              ((files.getD i default).file_number ∈ sStar ↔
                A ≤ i ∧ i ≤ B) := by
            intro i hilen
            constructor
            · intro hmemS
              have hmem1 := (hfrozen i hilen).mp hmemS
              rcases (hmem _).mp hmem1 with hin | ⟨f, hf, hfeq⟩ |
                  ⟨lvl, hlvl, g, hg, -, hgeq⟩
              · constructor
                · by_contra hcon
                  exact hflt i (by omega) hin
                · by_contra hcon
                  exact hlgt i (by omega) hilen hin
              · obtain ⟨j, hAj, hjB, hjlen, hje⟩ :=
                  levelSlice_mem_idx files A B f hf
                have hij : i = j := by
                  apply nums_index_inj files hnodupL i j hilen hjlen
                  rw [hje, hfeq]
                omega
              · exact absurd hgeq.symm
                  (hdisj (files.getD i default) (sstGetD_mem files i hilen)
                    lvl hlvl g hg)
            · rintro ⟨hAi, hiB⟩
              exact hsub _ ((hmem _).mpr (Or.inr (Or.inl
                ⟨files.getD i default,
                  levelSlice_getD_mem files A B i hAi hiB hilen, rfl⟩)))
          have hfi' : firstIncludedIdx sStar files = some A := by
            apply firstIncludedIdx_eq files sStar A (by omega)
            · exact (hint A (by omega)).mpr ⟨le_refl A, hAB⟩
            · intro j hj hmemj
              have := (hint j (by omega)).mp hmemj
              omega
          have hli' : lastIncludedIdx sStar files = some B := by
            apply lastIncludedIdx_eq files sStar B hBlen
            · exact (hint B hBlen).mpr ⟨hAB, le_refl B⟩
            · intro j hj hjlen hmemj
              have := (hint j hjlen).mp hmemj
              omega
          simp only [sanitizeLevelStep, hfi', hli']
          rw [hA', hB']
          have hKReq : sanitizeKr z files A B
              (if st.is_first = true then st.smallestkey
                else (files.getD A default).smallestkey)
              (if st.is_first = true then st.largestkey
                else (files.getD A default).largestkey) =
              sanitizeKr z files A B
              (if st.is_first = true then st.smallestkey
                else (files.getD fi default).smallestkey)
              (if st.is_first = true then st.largestkey
                else (files.getD fi default).largestkey) := by
            by_cases hisfirst : st.is_first = true
            · rw [if_pos hisfirst, if_pos hisfirst, if_pos hisfirst,
                if_pos hisfirst]
            · rw [if_neg hisfirst, if_neg hisfirst, if_neg hisfirst,
                if_neg hisfirst]
              by_cases hz : z = true
              · have hA_eq_fi : A = fi := by rw [hAdef, if_pos hz]
                rw [hA_eq_fi]
              · have hwff := hwf (by simpa using hz)
                have hm1 := wf_mono files hwff A fi hAfi hfl
                have hm2 := wf_mono files hwff A B hAB hBlen
                have hm3 := wf_mono files hwff fi B (by omega) hBlen
                unfold sanitizeKr
                rw [if_neg hz, if_neg hz]
                have e1 : min (files.getD A default).smallestkey
                    (files.getD A default).smallestkey =
                    (files.getD A default).smallestkey := min_self _
                have e2 : min (files.getD fi default).smallestkey
                    (files.getD A default).smallestkey =
                    (files.getD A default).smallestkey :=
                  min_eq_right hm1.1
                have e3 : max (files.getD A default).largestkey
                    (files.getD B default).largestkey =
                    (files.getD B default).largestkey := max_eq_right hm2.2
                have e4 : max (files.getD fi default).largestkey
                    (files.getD B default).largestkey =
                    (files.getD B default).largestkey := max_eq_right hm3.2
                rw [e1, e2, e3, e4]
          rw [hKReq]
          rw [sanitizeLevelCore_noop files lower A B _ sStar hsStar
            (fun f hf => ⟨hclean1 f hf,
              hsub _ ((hmem _).mpr (Or.inr (Or.inl ⟨f, hf, rfl⟩)))⟩)
            (fun lvl hlvl f hf hov => ⟨hclean2 lvl hlvl f hf hov,
              hsub _ ((hmem _).mpr (Or.inr (Or.inr ⟨lvl, hlvl, f, hf, hov, rfl⟩)))⟩)]
          rw [hsk, hlk, hisf]

/-- Re-running the whole level loop on the final set reproduces the final
state: by the time the loop ends every level's contribution is frozen (later
visits only add files of strictly deeper levels, whose numbers are distinct),
so a second pass retraces the first pass's key-range trajectory and never
changes the set. -/
theorem sanitize_sim_loop :
    ∀ (ls : List Nat) (levels : List (List SstFileMetaData)) (out : Nat)
      (st stFin : SanState),
      sanitizeLevelsLoop levels out ls st = .ok stFin →
      List.Chain' (· < ·) st.input_files →
      List.Pairwise (· < ·) ls →
      ((levels.map (fun lvl =>
        lvl.map (fun f => f.file_number))).flatten).Nodup →
      (∀ l, 0 < l → List.Pairwise (fun x y =>
        x.smallestkey ≤ y.smallestkey ∧ x.largestkey ≤ y.largestkey)
        (levels.getD l [])) →
      sanitizeLevelsLoop levels out ls
        ⟨stFin.input_files, st.smallestkey, st.largestkey, st.is_first⟩ =
        .ok stFin := by
  intro ls
  induction ls with
  | nil =>
      intro levels out st stFin h hsort hpw hnodup hwfAll
      simp [sanitizeLevelsLoop] at h
      subst h
      rfl
  | cons l rest ih =>
      intro levels out st stFin h hsort hpw hnodup hwfAll
      unfold sanitizeLevelsLoop at h
      cases hstep : sanitizeLevelStep (l == 0) (levels.getD l [])
          ((levels.drop (l + 1)).take (out - l)) st with
      | error e => simp only [hstep] at h; exact absurd h (by simp)
      | ok st₁ =>
          simp only [hstep] at h
          obtain ⟨hndL, hndX⟩ := levels_nodup_facts levels hnodup
          obtain ⟨hmonoR, hnewR, hsortR⟩ :=
            sanitizeLevelsLoop_ok rest levels out st₁ stFin h
          obtain ⟨hmono1, -, hsort1⟩ := sanitizeLevelStep_ok _ _ _ _ _ hstep
          have hsort₁ : List.Chain' (· < ·) st₁.input_files := hsort1 hsort
          have hsStar : List.Chain' (· < ·) stFin.input_files :=
            hsortR hsort₁
          have hlrest : ∀ l' ∈ rest, l < l' := (List.pairwise_cons.mp hpw).1
          have hpwrest := (List.pairwise_cons.mp hpw).2
          have hfrozen : ∀ i, i < (levels.getD l []).length →
              (((levels.getD l []).getD i default).file_number ∈
                  stFin.input_files ↔
               ((levels.getD l []).getD i default).file_number ∈
                  st₁.input_files) := by
            intro i hi
            constructor
            · intro hmemF
              rcases hnewR _ hmemF with hin |
                  ⟨j, ⟨l', hl', hlj⟩, hjlen, f, hf, hfeq⟩
              · exact hin
              · exfalso
                have hfi_mem : (levels.getD l []).getD i default ∈
                    levels.getD l [] := sstGetD_mem _ i hi
                have hllen : l < levels.length :=
                  (getD_level_mem levels l _ hfi_mem).1
                have hlj' : l ≠ j := by
                  have := hlrest l' hl'
                  omega
                exact hndX l j hllen hjlen hlj' _ hfi_mem f hf hfeq.symm
            · intro hmem₁
              exact hmonoR _ hmem₁
          have hnodupL : ((levels.getD l []).map
              (fun f => f.file_number)).Nodup := by
            by_cases hl : l < levels.length
            · exact hndL l hl
            · rw [List.getD_eq_default _ _ (by omega)]
              simp
          have hdisj : ∀ f ∈ levels.getD l [],
              ∀ lvl ∈ (levels.drop (l + 1)).take (out - l),
              ∀ g ∈ lvl, f.file_number ≠ g.file_number := by
            intro f hf lvl hlvl g hg
            obtain ⟨j, hj1, hj2, rfl⟩ := lower_slice_mem levels l _ lvl hlvl
            have hllen : l < levels.length := (getD_level_mem levels l f hf).1
            exact hndX l j hllen hj2 (by omega) f hf g hg
          have hwfZ : (l == 0) = false → List.Pairwise (fun x y =>
              x.smallestkey ≤ y.smallestkey ∧ x.largestkey ≤ y.largestkey)
              (levels.getD l []) := by
            intro hz
            have hl0 : l ≠ 0 := by simpa using hz
            exact hwfAll l (Nat.pos_of_ne_zero hl0)
          have hsim := sanitize_sim_step (l == 0) (levels.getD l [])
            ((levels.drop (l + 1)).take (out - l)) st st₁
            stFin.input_files hstep hsStar hmonoR hfrozen hnodupL hdisj hwfZ
          unfold sanitizeLevelsLoop
          rw [hsim]
          exact ih levels out st₁ stFin h hsort₁ hpwrest hnodup hwfAll

/-- C9: `SanitizeCompactionInputFiles` is idempotent: whenever sanitization
of a set `s` succeeds with result `s'` (over column-family metadata whose
file numbers are globally distinct, whose levels at index 1 and deeper are
sorted with monotone key ranges, and with `s` an ascending set as
`std::set<uint64_t>` guarantees), sanitizing `s'` again over the same
metadata and output level succeeds and returns `s'` unchanged. -/
theorem sanitizeCompactionInputFiles_idem
    (maxOut kDel : Int) (s s' : List Nat)
    (levels : List (List SstFileMetaData)) (out : Int)
    (hnodup : ((levels.map (fun lvl =>
      lvl.map (fun f => f.file_number))).flatten).Nodup)
    (hwfAll : ∀ l, 0 < l → List.Pairwise (fun x y =>
      x.smallestkey ≤ y.smallestkey ∧ x.largestkey ≤ y.largestkey)
      (levels.getD l []))
    (hs : List.Chain' (· < ·) s)
    (h : SanitizeCompactionInputFiles maxOut kDel s levels out = .ok s') :
    SanitizeCompactionInputFiles maxOut kDel s' levels out = .ok s' := by
  unfold SanitizeCompactionInputFiles at h ⊢
  by_cases h1 : (levels.length : Int) ≤ out
  · rw [if_pos h1] at h
    exact absurd h (by simp)
  · rw [if_neg h1] at h ⊢
    by_cases h2 : maxOut < out
    · rw [if_pos h2] at h
      exact absurd h (by simp)
    · rw [if_neg h2] at h ⊢
      by_cases h3 : out < 0 ∧ out ≠ kDel
      · rw [if_pos h3] at h
        exact absurd h (by simp)
      · rw [if_neg h3] at h ⊢
        by_cases h4 : s.length = 0
        · rw [if_pos h4] at h
          exact absurd h (by simp)
        · rw [if_neg h4] at h
          cases hinner : (if out < 0 then Except.ok s
              else SanitizeCompactionInputFilesForAllLevels levels
                out.toNat s) with
          | error e =>
              simp only [hinner] at h
              exact absurd h (by simp)
          | ok t =>
              simp only [hinner] at h
              cases htr : trailingCheck levels t with
              | error e =>
                  simp only [htr] at h
                  exact absurd h (by simp)
              | ok u =>
                  simp only [htr] at h
                  obtain rfl : t = s' := Except.ok.inj h
                  by_cases h5 : out < 0
                  · rw [if_pos h5] at hinner
                    have hse : s = t := Except.ok.inj hinner
                    have h4' : ¬ t.length = 0 := by
                      rw [← hse]; exact h4
                    rw [if_neg h4', if_pos h5]
                    simp only [htr]
                  · rw [if_neg h5] at hinner
                    unfold SanitizeCompactionInputFilesForAllLevels at hinner
                    cases hloop : sanitizeLevelsLoop levels out.toNat
                        (List.range (out.toNat + 1)) ⟨s, 0, 0, false⟩ with
                    | error e =>
                        simp only [hloop] at hinner
                        exact absurd hinner (by simp)
                    | ok stFin =>
                        simp only [hloop] at hinner
                        have hfin : stFin.input_files = t :=
                          Except.ok.inj hinner
                        have hmono :=
                          (sanitizeLevelsLoop_ok _ _ _ _ _ hloop).1
                        have h4' : ¬ t.length = 0 := by
                          cases s with
                          | nil => simp at h4
                          | cons a as =>
                              have hmem : a ∈ stFin.input_files :=
                                hmono a (by simp)
                              rw [hfin] at hmem
                              intro hc
                              rw [List.length_eq_zero] at hc
                              subst hc
                              simp at hmem
                        have hsim := sanitize_sim_loop
                          (List.range (out.toNat + 1)) levels out.toNat
                          ⟨s, 0, 0, false⟩ stFin hloop hs
                          (List.pairwise_lt_range _) hnodup hwfAll
                        rw [hfin] at hsim
                        rw [if_neg h4', if_neg h5]
                        unfold SanitizeCompactionInputFilesForAllLevels
                        simp only [hsim, hfin, htr]

/-- A three-level metadata example on which sanitization genuinely expands:
from `{1}` the level-0 file pulls in the overlapping level-1 file `5`. -/
def sanLevelsEx : List (List SstFileMetaData) :=
  [[⟨1, 10, 20, false⟩],
   [⟨4, 0, 5, false⟩, ⟨5, 15, 30, false⟩],
   [⟨6, 100, 200, false⟩]]

theorem sanitizeCompactionInputFiles_idem_witness :
    SanitizeCompactionInputFiles 2 (-2) [1, 5] sanLevelsEx 1 = .ok [1, 5] :=
  sanitizeCompactionInputFiles_idem 2 (-2) [1] [1, 5] sanLevelsEx 1
    (by decide)
    (by
      intro l hl
      rcases l with _ | (_ | (_ | n))
      · exact absurd hl (by decide)
      · decide
      · decide
      · rw [List.getD_eq_default _ _ (by simp [sanLevelsEx])]
        exact List.Pairwise.nil)
    (by simp)
    (by rfl)

theorem findFileMeta_mem (n : Nat) :
    ∀ (levels : List (List SstFileMetaData)) (f : SstFileMetaData),
      findFileMeta n levels = some f → ∃ lvl ∈ levels, f ∈ lvl := by
  intro levels
  induction levels with
  | nil => intro f h; simp [findFileMeta] at h
  | cons lvl rest ih =>
      intro f h
      unfold findFileMeta at h
      cases hfind : lvl.find? (fun g => g.file_number == n) with
      | some g =>
          simp only [hfind] at h
          obtain rfl : g = f := Option.some.inj h
          exact ⟨lvl, by simp, List.mem_of_find?_eq_some hfind⟩
      | none =>
          simp only [hfind] at h
          obtain ⟨l, hl, hf⟩ := ih f h
          exact ⟨l, List.mem_cons_of_mem _ hl, hf⟩

theorem findFileMeta_exists (n : Nat) :
    ∀ levels : List (List SstFileMetaData),
      (∃ lvl ∈ levels, ∃ f ∈ lvl, f.file_number = n) →
      ∃ g, findFileMeta n levels = some g := by
  intro levels
  induction levels with
  | nil =>
      rintro ⟨lvl, hlvl, -⟩
      simp at hlvl
  | cons lvl0 rest ih =>
      rintro ⟨lvl, hlvl, f, hf, hfn⟩
      unfold findFileMeta
      cases hfind : lvl0.find? (fun g => g.file_number == n) with
      | some g => exact ⟨g, rfl⟩
      | none =>
          rcases List.mem_cons.mp hlvl with rfl | hmem
          · exfalso
            have := List.find?_eq_none.mp hfind f hf
            simp [hfn] at this
          · exact ih ⟨lvl, hmem, f, hf, hfn⟩

theorem trailing_unknown (levels : List (List SstFileMetaData))
    (hclean : ∀ lvl ∈ levels, ∀ f ∈ lvl, f.being_compacted = false) :
    ∀ xs : List Nat, (∃ n ∈ xs, findFileMeta n levels = none) →
      trailingCheck levels xs = .error .invalidArgument := by
  intro xs
  induction xs with
  | nil =>
      rintro ⟨n, hn, -⟩
      simp at hn
  | cons m rest ih =>
      rintro ⟨n, hn, hnone⟩
      unfold trailingCheck
      cases hfind : findFileMeta m levels with
      | none => rfl
      | some f =>
          obtain ⟨lvl, hlvl, hf⟩ := findFileMeta_mem m levels f hfind
          show (if f.being_compacted = true then Except.error Status.aborted
            else trailingCheck levels rest) = _
          rw [if_neg (by rw [hclean lvl hlvl f hf]; simp)]
          apply ih
          rcases List.mem_cons.mp hn with rfl | hmem'
          · rw [hfind] at hnone
            exact absurd hnone (by simp)
          · exact ⟨n, hmem', hnone⟩

theorem trailing_busy (levels : List (List SstFileMetaData)) :
    ∀ xs : List Nat, (∀ m ∈ xs, ∃ g, findFileMeta m levels = some g) →
      (∃ n ∈ xs, ∃ f, findFileMeta n levels = some f ∧
        f.being_compacted = true) →
      trailingCheck levels xs = .error .aborted := by
  intro xs
  induction xs with
  | nil =>
      rintro - ⟨n, hn, -⟩
      simp at hn
  | cons m rest ih =>
      rintro hknown ⟨n, hn, f, hfind, hbusy⟩
      unfold trailingCheck
      obtain ⟨g, hg⟩ := hknown m (by simp)
      rw [hg]
      show (if g.being_compacted = true then Except.error Status.aborted
        else trailingCheck levels rest) = _
      by_cases hgb : g.being_compacted = true
      · rw [if_pos hgb]
      · rw [if_neg hgb]
        apply ih (fun m' hm' => hknown m' (List.mem_cons_of_mem _ hm'))
        rcases List.mem_cons.mp hn with rfl | hmem'
        · rw [hg] at hfind
          obtain rfl : g = f := Option.some.inj hfind
          exact absurd hbusy hgb
        · exact ⟨n, hmem', f, hfind, hbusy⟩

theorem matchLevel_unmatched (n : Nat) :
    ∀ (lvl : List FileMetaData) (s : List Nat), n ∈ s →
      (∀ f ∈ lvl, f.file_number ≠ n) → n ∈ (matchLevel s lvl).1 := by
  intro lvl
  induction lvl with
  | nil => intro s hn _; exact hn
  | cons f rest ih =>
      intro s hn hne
      unfold matchLevel
      by_cases hmem : f.file_number ∈ s
      · rw [if_pos hmem]
        show n ∈ (matchLevel (s.erase f.file_number) rest).1
        refine ih _ ?_ (fun g hg => hne g (List.mem_cons_of_mem _ hg))
        exact (List.mem_erase_of_ne
          (Ne.symm (hne f (List.mem_cons_self f rest)))).mpr hn
      · rw [if_neg hmem]
        exact ih _ hn (fun g hg => hne g (List.mem_cons_of_mem _ hg))

theorem matchLevels_unmatched (n : Nat) :
    ∀ (vls : List (List FileMetaData)) (s : List Nat), n ∈ s →
      (∀ lvl ∈ vls, ∀ f ∈ lvl, f.file_number ≠ n) →
      n ∈ (matchLevels s vls).1 := by
  intro vls
  induction vls with
  | nil => intro s hn _; exact hn
  | cons lvl rest ih =>
      intro s hn hne
      unfold matchLevels
      show n ∈ (matchLevels (matchLevel s lvl).1 rest).1
      exact ih _ (matchLevel_unmatched n lvl s hn
          (fun f hf => hne lvl (by simp) f hf))
        (fun l hl f hf => hne l (List.mem_cons_of_mem _ hl) f hf)

/-- C8: input validation of the two entry points.  `SanitizeCompactionInputFiles`
returns `InvalidArgument` for an empty input set or an illegal output level
(beyond the number of levels, above `MaxOutputLevel()`, or negative without
being the `kDeletionCompaction` sentinel), returns `InvalidArgument` when a
requested file number exists in no level (all files idle, so no earlier
abort can mask it), and returns `Aborted` when a requested file is already
being compacted (all requested numbers known);
`GetCompactionInputsFromFileNumbers` returns `InvalidArgument` for an empty
set or a file number matched by no level; and sanitization never touches
the picker's own state (`compactions_in_progress_` and the `being_compacted`
flags). -/
theorem sanitize_error_handling
    (maxOut kDel out : Int) (s : List Nat)
    (levels : List (List SstFileMetaData))
    (st : PickerState) (versionFiles : List (List FileMetaData)) :
    ((s.length = 0 ∨ (levels.length : Int) ≤ out ∨ maxOut < out ∨
        (out < 0 ∧ out ≠ kDel)) →
      SanitizeCompactionInputFiles maxOut kDel s levels out =
        .error .invalidArgument) ∧
    (¬ (levels.length : Int) ≤ out → ¬ maxOut < out →
      ¬ (out < 0 ∧ out ≠ kDel) → ¬ s.length = 0 →
      (∀ lvl ∈ levels, ∀ f ∈ lvl, f.being_compacted = false) →
      (∃ n ∈ s, findFileMeta n levels = none) →
      SanitizeCompactionInputFiles maxOut kDel s levels out =
        .error .invalidArgument) ∧
    (¬ (levels.length : Int) ≤ out → ¬ maxOut < out →
      ¬ (out < 0 ∧ out ≠ kDel) → ¬ s.length = 0 →
      (∀ m ∈ s, ∃ g, findFileMeta m levels = some g) →
      (∃ n ∈ s, ∃ f, findFileMeta n levels = some f ∧
        f.being_compacted = true) →
      SanitizeCompactionInputFiles maxOut kDel s levels out =
        .error .aborted) ∧
    (s.length = 0 →
      GetCompactionInputsFromFileNumbers s versionFiles =
        .error .invalidArgument) ∧
    ((∃ n ∈ s, ∀ lvl ∈ versionFiles, ∀ f ∈ lvl, f.file_number ≠ n) →
      GetCompactionInputsFromFileNumbers s versionFiles =
        .error .invalidArgument) ∧
    (SanitizeCompactionInputFilesOnState st maxOut kDel s levels out).1 =
      st := by
  refine ⟨?_, ?_, ?_, ?_, ?_, rfl⟩
  · intro hbad
    unfold SanitizeCompactionInputFiles
    by_cases h1 : (levels.length : Int) ≤ out
    · rw [if_pos h1]
    · rw [if_neg h1]
      by_cases h2 : maxOut < out
      · rw [if_pos h2]
      · rw [if_neg h2]
        by_cases h3 : out < 0 ∧ out ≠ kDel
        · rw [if_pos h3]
        · rw [if_neg h3]
          have h4 : s.length = 0 := by tauto
          rw [if_pos h4]
  · intro h1 h2 h3 h4 hclean hex
    obtain ⟨n, hn, hnone⟩ := hex
    unfold SanitizeCompactionInputFiles
    rw [if_neg h1, if_neg h2, if_neg h3, if_neg h4]
    by_cases h5 : out < 0
    · have htr := trailing_unknown levels hclean s ⟨n, hn, hnone⟩
      simp only [if_pos h5, htr]
    · obtain ⟨stFin, hloop⟩ := sanitizeLevelsLoop_ok_of_clean levels
        out.toNat hclean (List.range (out.toNat + 1)) ⟨s, 0, 0, false⟩
      have hmono := (sanitizeLevelsLoop_ok _ _ _ _ _ hloop).1
      have htr := trailing_unknown levels hclean stFin.input_files
        ⟨n, hmono n hn, hnone⟩
      simp only [if_neg h5, SanitizeCompactionInputFilesForAllLevels,
        hloop, htr]
  · intro h1 h2 h3 h4 hknown hex
    obtain ⟨n, hn, f, hfind, hbusy⟩ := hex
    unfold SanitizeCompactionInputFiles
    rw [if_neg h1, if_neg h2, if_neg h3, if_neg h4]
    by_cases h5 : out < 0
    · have htr := trailing_busy levels s hknown ⟨n, hn, f, hfind, hbusy⟩
      simp only [if_pos h5, htr]
    · cases hloop : sanitizeLevelsLoop levels out.toNat
          (List.range (out.toNat + 1)) ⟨s, 0, 0, false⟩ with
      | error e =>
          have he := sanitizeLevelsLoop_error _ _ _ _ _ hloop
          subst he
          simp only [if_neg h5, SanitizeCompactionInputFilesForAllLevels,
            hloop]
      | ok stFin =>
          obtain ⟨hmono, hnew, -⟩ := sanitizeLevelsLoop_ok _ _ _ _ _ hloop
          have hknown' : ∀ m ∈ stFin.input_files,
              ∃ g, findFileMeta m levels = some g := by
            intro m hm
            rcases hnew m hm with hold | ⟨j, -, hjlen, g, hg, hgn⟩
            · exact hknown m hold
            · apply findFileMeta_exists
              refine ⟨levels.getD j [], ?_, g, hg, hgn⟩
              rw [List.getD_eq_getElem _ _ hjlen]
              exact List.getElem_mem hjlen
          have htr := trailing_busy levels stFin.input_files hknown'
            ⟨n, hmono n hn, f, hfind, hbusy⟩
          simp only [if_neg h5, SanitizeCompactionInputFilesForAllLevels,
            hloop, htr]
  · intro h0
    unfold GetCompactionInputsFromFileNumbers
    rw [if_pos h0]
  · rintro ⟨n, hn, hne⟩
    unfold GetCompactionInputsFromFileNumbers
    have hs0 : ¬ s.length = 0 := by
      intro hc
      rw [List.length_eq_zero] at hc
      subst hc
      simp at hn
    rw [if_neg hs0]
    have hleft : n ∈ (matchLevels s versionFiles).1 :=
      matchLevels_unmatched n versionFiles s hn hne
    have hcond : ((matchLevels s versionFiles).1).isEmpty = false := by
      cases hml : (matchLevels s versionFiles).1 with
      | nil => rw [hml] at hleft; simp at hleft
      | cons a as => rfl
    simp only [if_pos hcond]

/-- A single-level metadata example whose only file is being compacted. -/
def sanLevelsBusyEx : List (List SstFileMetaData) := [[⟨3, 0, 5, true⟩]]

/-- A single-level version-files example for the file-number matcher. -/
def vfEx : List (List FileMetaData) := [[⟨1, 0, 5, 10, 10, false⟩]]

theorem sanitize_error_handling_witness :
    SanitizeCompactionInputFiles 2 (-2) [] sanLevelsEx 1 =
        .error .invalidArgument ∧
    SanitizeCompactionInputFiles 2 (-2) [9] sanLevelsEx 1 =
        .error .invalidArgument ∧
    SanitizeCompactionInputFiles 0 (-2) [3] sanLevelsBusyEx 0 =
        .error .aborted ∧
    GetCompactionInputsFromFileNumbers [] vfEx = .error .invalidArgument ∧
    GetCompactionInputsFromFileNumbers [7] vfEx = .error .invalidArgument :=
  ⟨(sanitize_error_handling 2 (-2) 1 [] sanLevelsEx ⟨[], []⟩ vfEx).1
      (Or.inl rfl),
   (sanitize_error_handling 2 (-2) 1 [9] sanLevelsEx ⟨[], []⟩ vfEx).2.1
      (by decide) (by decide) (by decide) (by decide) (by decide)
      ⟨9, by simp, rfl⟩,
   (sanitize_error_handling 0 (-2) 0 [3] sanLevelsBusyEx ⟨[], []⟩ vfEx).2.2.1
      (by decide) (by decide) (by decide) (by decide)
      (by
        intro m hm
        obtain rfl : m = 3 := by simpa using hm
        exact ⟨⟨3, 0, 5, true⟩, rfl⟩)
      ⟨3, by simp, ⟨3, 0, 5, true⟩, rfl, rfl⟩,
   (sanitize_error_handling 2 (-2) 1 [] sanLevelsEx ⟨[], []⟩ vfEx).2.2.2.1
      rfl,
   (sanitize_error_handling 2 (-2) 1 [7] sanLevelsEx ⟨[], []⟩ vfEx).2.2.2.2.1
      ⟨7, by simp, by decide⟩⟩
